import Mathlib

/-!
Shallow embedding of the dependency-resolution rule index
(`resolve/index.go` of bazel-gazelle) and proofs about it.

The Go code is stateful: `RuleIndex` owns a slice of `*ruleRecord`, a map
from labels to records, and (after `Finish`) a map from import specs to
records.  Records are mutated in place during `Finish`.  We model the heap
of records as a list indexed by position (a record pointer becomes its
index into `rules`), and mutation becomes functional update of that list.
Machine behaviour that aborts the process (`log.Panicf`, a nil-interface
method call) is modelled by `Option`/`Except` error results.
-/

set_option autoImplicit false

namespace GazelleResolve

/-! ### Positional list access (a record pointer is an index into `rules`) -/

/-- The element of `l` at position `i`, if present. -/
def nth {α : Type} : List α → Nat → Option α
  | [], _ => none
  | a :: _, 0 => some a
  | _ :: l, n + 1 => nth l n

/-- Replacement of the `i`-th element of `l` with `a` (no-op when out of range). -/
def setNth {α : Type} : List α → Nat → α → List α
  | [], _, _ => []
  | _ :: l, 0, b => b :: l
  | a :: l, n + 1, b => a :: setNth l n b

/-- Pairing of each element of `l` with its position, starting at `n`. -/
def enumFrom {α : Type} : Nat → List α → List (Nat × α)
  | _, [] => []
  | n, a :: l => (n, a) :: enumFrom (n + 1) l

@[simp] theorem nth_nil {α : Type} (i : Nat) : nth ([] : List α) i = none := by
  cases i <;> rfl

@[simp] theorem nth_cons_zero {α : Type} (a : α) (l : List α) : nth (a :: l) 0 = some a := rfl

@[simp] theorem nth_cons_succ {α : Type} (a : α) (l : List α) (n : Nat) :
    nth (a :: l) (n + 1) = nth l n := rfl

theorem nth_isSome_of_lt {α : Type} : ∀ (l : List α) (i : Nat), i < l.length →
    ∃ a, nth l i = some a := by
  intro l
  induction l with
  | nil => intro i h; simp at h
  | cons a l ih =>
    intro i h
    cases i with
    | zero => exact ⟨a, rfl⟩
    | succ n => exact ih n (by simpa using h)

theorem lt_of_nth_some {α : Type} : ∀ (l : List α) (i : Nat) (a : α), nth l i = some a →
    i < l.length := by
  intro l
  induction l with
  | nil => intro i a h; simp at h
  | cons b l ih =>
    intro i a h
    cases i with
    | zero => simp
    | succ n => exact Nat.succ_lt_succ (ih n a h)

theorem mem_of_nth_some {α : Type} : ∀ (l : List α) (i : Nat) (a : α),
    nth l i = some a → a ∈ l := by
  intro l
  induction l with
  | nil => intro i a h; simp at h
  | cons b l ih =>
    intro i a h
    cases i with
    | zero => simp at h; simp [h]
    | succ n => exact List.mem_cons_of_mem _ (ih n a h)

theorem length_setNth {α : Type} : ∀ (l : List α) (i : Nat) (a : α),
    (setNth l i a).length = l.length := by
  intro l
  induction l with
  | nil => intro i a; rfl
  | cons b l ih =>
    intro i a
    cases i with
    | zero => rfl
    | succ n => simp [setNth, ih]

theorem nth_setNth_self {α : Type} : ∀ (l : List α) (i : Nat) (a : α), i < l.length →
    nth (setNth l i a) i = some a := by
  intro l
  induction l with
  | nil => intro i a h; simp at h
  | cons b l ih =>
    intro i a h
    cases i with
    | zero => rfl
    | succ n => exact ih n a (by simpa using h)

theorem nth_setNth_ne {α : Type} : ∀ (l : List α) (i j : Nat) (a : α), i ≠ j →
    nth (setNth l i a) j = nth l j := by
  intro l
  induction l with
  | nil => intro i j a _; rfl
  | cons b l ih =>
    intro i j a hij
    cases i with
    | zero =>
      cases j with
      | zero => exact absurd rfl hij
      | succ m => rfl
    | succ n =>
      cases j with
      | zero => rfl
      | succ m => exact ih n m a (fun h => hij (by simp [h]))

theorem nth_append_left {α : Type} : ∀ (l l' : List α) (i : Nat), i < l.length →
    nth (l ++ l') i = nth l i := by
  intro l
  induction l with
  | nil => intro l' i h; simp at h
  | cons a l ih =>
    intro l' i h
    cases i with
    | zero => rfl
    | succ n => exact ih l' n (by simpa using h)

theorem nth_append_right {α : Type} : ∀ (l l' : List α) (i : Nat),
    nth (l ++ l') (l.length + i) = nth l' i := by
  intro l
  induction l with
  | nil => intro l' i; simp
  | cons a l ih =>
    intro l' i
    have : l.length + 1 + i = (l.length + i) + 1 := by omega
    simp only [List.cons_append, List.length_cons, this, nth_cons_succ]
    exact ih l' i

theorem mem_enumFrom {α : Type} : ∀ (l : List α) (n j : Nat) (x : α),
    (j, x) ∈ enumFrom n l ↔ ∃ k, nth l k = some x ∧ j = n + k := by
  intro l
  induction l with
  | nil => intro n j x; simp [enumFrom]
  | cons a l ih =>
    intro n j x
    simp only [enumFrom, List.mem_cons, ih]
    constructor
    · rintro (h | ⟨k, hk, hj⟩)
      · rw [Prod.mk.injEq] at h
        obtain ⟨hj, hx⟩ := h
        exact ⟨0, by simp [hx], by omega⟩
      · exact ⟨k + 1, by simpa using hk, by omega⟩
    · rintro ⟨k, hk, hj⟩
      cases k with
      | zero =>
        left
        simp only [nth_cons_zero, Option.some.injEq] at hk
        rw [Prod.mk.injEq]
        exact ⟨by omega, hk.symm⟩
      | succ m =>
        right
        exact ⟨m, by simpa using hk, by omega⟩

theorem enumFrom_append_single {α : Type} : ∀ (l : List α) (n : Nat) (a : α),
    enumFrom n (l ++ [a]) = enumFrom n l ++ [(n + l.length, a)] := by
  intro l
  induction l with
  | nil => intro n a; simp [enumFrom]
  | cons b l ih =>
    intro n a
    have h : n + 1 + l.length = n + (l.length + 1) := by omega
    simp [enumFrom, ih, h]

/-! ### Data model -/

/-- A build label.  The label package is an external collaborator of this core
(not part of the translated source); `Modelled from the spec:` an absolute or
relative address `{Repository, Package, Name}` with structural equality and an
`Abs` operation that resolves a relative address against a base repo/package. -/
structure Label where
  repo : String
  pkg : String
  name : String
  relative : Bool
deriving DecidableEq, Repr, Inhabited

/-- Modelled from the spec: `Abs` returns the label itself when it is already
absolute, and otherwise rebases it on the given repository and package. -/
def Label.abs (l : Label) (repo pkg : String) : Label :=
  if l.relative then { repo := repo, pkg := pkg, name := l.name, relative := false } else l

/-- Modelled from the spec: `label.New` builds an absolute label from
repository, package and rule name. -/
def label.new (repo pkg name : String) : Label :=
  { repo := repo, pkg := pkg, name := name, relative := false }

/-- ImportSpec describes a library to be imported.  `imp` is an import string
for the library, `lang` the language in which it appears. -/
structure ImportSpec where
  lang : String
  imp : String
deriving DecidableEq, Repr, Inhabited

/-- Opaque handle to a build rule; the index only reads the rule's name (for
label construction) and hands the rule to provider callbacks.  `kind` stands
for whatever identity the caller-supplied callbacks dispatch on. -/
structure Rule where
  name : String
  kind : String
deriving DecidableEq, Repr, Inhabited

/-- Opaque handle to a build file; the index only reads its package path. -/
structure File where
  pkg : String
deriving DecidableEq, Repr, Inhabited

/-- The fragment of `config.Config` the index reads: the repository name and
the language allow-list `Langs`. -/
structure Config where
  repoName : String
  langs : List String

/-- A language extension's resolver capability: `Name`, `Imports` and `Embeds`
(the `Resolve` method is never called by the index itself). -/
structure Resolver where
  name : String
  imports : Config → Rule → File → Option (List ImportSpec)
  embeds : Rule → Label → List Label

/-- A matched rule returned from a query. -/
structure FindResult where
  label : Label
  embeds : List Label
deriving DecidableEq, Repr, Inhabited

/-- A CrossResolver as consumed by `FindRulesByImportWithConfig`: it receives
the config, the import spec and the consuming language and produces results.
(In Go it also receives the index itself; a cross resolver here is an
arbitrary function and may close over whatever it needs, so that argument
carries no extra information in the model.) -/
def CrossResolver : Type := Config → ImportSpec → String → List FindResult

/-- ruleRecord contains information about a rule relevant to import indexing. -/
structure RuleRecord where
  rule : Rule
  label : Label
  file : File
  importedAs : List ImportSpec
  embeds : List Label
  embedded : Bool
  didCollectEmbeds : Bool
  lang : String
deriving DecidableEq, Repr, Inhabited

/-- RuleIndex is a table of rules in a workspace, indexed by label and
by import path.  `labelMap` maps a label to the position of its record in
`rules`; `importMap` maps an import spec to the positions of its candidate
records. -/
structure RuleIndex where
  rules : List RuleRecord
  labelMap : List (Label × Nat)
  importMap : List (ImportSpec × List Nat)
  mrslv : Rule → String → Option Resolver
  crossResolvers : List CrossResolver
  didFinish : Bool

/-! ### Map helpers (Go `map[label.Label]*ruleRecord` and `map[ImportSpec][]*ruleRecord`) -/

/-- Lookup in the label map. -/
def lookupLabel : List (Label × Nat) → Label → Option Nat
  | [], _ => none
  | p :: m, l => if p.1 = l then some p.2 else lookupLabel m l

/-- Whether the import map has a bucket for `imp`. -/
def importMapHas : List (ImportSpec × List Nat) → ImportSpec → Bool
  | [], _ => false
  | p :: m, imp => p.1 = imp || importMapHas m imp

/-- The bucket for `imp` (empty when absent), i.e. Go `ix.importMap[imp]`. -/
def importMapGet : List (ImportSpec × List Nat) → ImportSpec → List Nat
  | [], _ => []
  | p :: m, imp => if p.1 = imp then p.2 else importMapGet m imp

/-- Go `ix.importMap[imp] = append(ix.importMap[imp], r)`. -/
def importMapAppend (m : List (ImportSpec × List Nat)) (imp : ImportSpec) (i : Nat) :
    List (ImportSpec × List Nat) :=
  if importMapHas m imp then
    m.map (fun p => if p.1 = imp then (p.1, p.2 ++ [i]) else p)
  else m ++ [(imp, [i])]

/-! ### The operations of `resolve/index.go` -/

/-- passesLanguageFilter returns true if the filter is empty (disabled) or if
the given language name appears in it. -/
def passesLanguageFilter (langFilter : List String) (langName : String) : Bool :=
  if langFilter.isEmpty then true
  else langFilter.any (fun l => l == langName)

/-- NewRuleIndex creates a new index.  (The Go constructor filters its
variadic extension arguments down to those implementing CrossResolver; the
model receives that filtered list directly.) -/
def NewRuleIndex (mrslv : Rule → String → Option Resolver)
    (crossResolvers : List CrossResolver) : RuleIndex :=
  { rules := [], labelMap := [], importMap := [], mrslv := mrslv,
    crossResolvers := crossResolvers, didFinish := false }

/-- The `var lang; var imps` prologue of AddRule: resolver lookup, the
language filter, and the `Imports` call. -/
def addRuleLangImps (ix : RuleIndex) (c : Config) (r : Rule) (f : File) :
    String × Option (List ImportSpec) :=
  match ix.mrslv r f.pkg with
  | some rslv =>
    (rslv.name,
     if passesLanguageFilter c.langs rslv.name then rslv.imports c r f else none)
  | none => ("", none)

/-- The record AddRule would create for rule `r` with imports `imps`. -/
def newRecord (c : Config) (r : Rule) (f : File) (imps : List ImportSpec)
    (lang : String) : RuleRecord :=
  { rule := r, label := label.new c.repoName f.pkg r.name, file := f,
    importedAs := imps, embeds := [], embedded := false,
    didCollectEmbeds := false, lang := lang }

/-- AddRule adds a rule to the index.  Returns `none` when the registration
phase is over (`log.Panicf` aborts the process in Go). -/
def RuleIndex.AddRule (ix : RuleIndex) (c : Config) (r : Rule) (f : File) :
    Option RuleIndex :=
  if ix.didFinish then none
  else
    -- If imps == nil, the rule is not importable.
    match addRuleLangImps ix c r f with
    | (_, none) => some ix
    | (lang, some imps) =>
      let record := newRecord c r f imps lang
      match lookupLabel ix.labelMap record.label with
      | some _ => some ix    -- log.Printf "multiple rules found"; first wins
      | none =>
        some { ix with
                rules := ix.rules ++ [record],
                labelMap := ix.labelMap ++ [(record.label, ix.rules.length)] }

def findRuleByLabel (ix : RuleIndex) (l : Label) (frm : Label) : Option Nat :=
  lookupLabel ix.labelMap (l.abs frm.repo frm.pkg)

/-- In-place mutation of the record at position `i` (a Go pointer write). -/
def modifyRec (ix : RuleIndex) (i : Nat) (f : RuleRecord → RuleRecord) : RuleIndex :=
  { ix with rules :=
      match nth ix.rules i with
      | some r => setNth ix.rules i (f r)
      | none => ix.rules }

/-- How a run of `collectEmbeds` can fail: `outOfFuel` would mean the modelled
recursion exceeded its depth bound (proved impossible), `nilResolver` models
the nil-interface method call Go would perform when the provider lookup
returns nil inside `collectEmbeds`. -/
inductive CEErr where
  | outOfFuel
  | nilResolver
deriving DecidableEq, Repr

/-- The body of `collectEmbeds`' `for _, e := range embedLabels` loop.  `ce`
is the recursive call at one less fuel. -/
def collectLoop (ce : RuleIndex → Nat → Except CEErr RuleIndex) :
    RuleIndex → Nat → Resolver → List Label → Except CEErr RuleIndex
  | ix, _, _, [] => .ok ix
  | ix, i, resolver, e :: rest =>
    match nth ix.rules i with
    | none => .ok ix    -- unreachable: a Go record pointer is always valid
    | some ri =>
      match findRuleByLabel ix e ri.label with
      | none => collectLoop ce ix i resolver rest
      | some erIdx =>
        match ce ix erIdx with
        | .error err => .error err
        | .ok s =>
          match nth s.rules erIdx with
          | none => .error .nilResolver    -- unreachable: labelMap holds valid records
          | some er =>
            match s.mrslv er.rule er.file.pkg with
            | none => .error .nilResolver
            | some erResolver =>
              let t :=
                if resolver.name = erResolver.name then
                  modifyRec
                    (modifyRec s erIdx (fun rc => { rc with embedded := true }))
                    i (fun rc => { rc with embeds := rc.embeds ++ er.embeds })
                else s
              let t' := modifyRec t i
                (fun rc => { rc with importedAs := rc.importedAs ++ er.importedAs })
              collectLoop ce t' i resolver rest

/-- collectEmbeds, with an explicit recursion-depth bound `fuel` standing for
Go's call stack.  Go marks `didCollectEmbeds` and then assigns
`r.embeds = embedLabels` before entering the loop; nothing observes the state
between those two writes, so they are fused into one record update here. -/
def collectEmbedsF : Nat → RuleIndex → Nat → Except CEErr RuleIndex
  | 0, _, _ => .error .outOfFuel
  | fuel + 1, ix, i =>
    match nth ix.rules i with
    | none => .ok ix    -- unreachable: a Go record pointer is always valid
    | some r =>
      if r.didCollectEmbeds then .ok ix
      else
        match ix.mrslv r.rule r.file.pkg with
        | none => .error .nilResolver
        | some resolver =>
          let embedLabels := resolver.embeds r.rule r.label
          let ix2 := modifyRec ix i
            (fun rc => { rc with didCollectEmbeds := true, embeds := embedLabels })
          collectLoop (collectEmbedsF fuel) ix2 i resolver embedLabels

/-- One pass of `dedupAdd` registers a record's `importedAs` entries in
the import map, skipping specs already indexed for this record. -/
def dedupAdd (i : Nat) : List ImportSpec → List ImportSpec →
    List (ImportSpec × List Nat) → List (ImportSpec × List Nat)
  | [], _, m => m
  | imp :: rest, indexed, m =>
    if imp ∈ indexed then dedupAdd i rest indexed m
    else dedupAdd i rest (indexed ++ [imp]) (importMapAppend m imp i)

/-- The `for _, r := range ix.rules` loop of buildImportIndex, over the
enumerated records. -/
def buildImportMap : List (Nat × RuleRecord) → List (ImportSpec × List Nat) →
    List (ImportSpec × List Nat)
  | [], m => m
  | (i, r) :: rest, m =>
    if r.embedded then buildImportMap rest m
    else buildImportMap rest (dedupAdd i r.importedAs [] m)

/-- buildImportIndex constructs the map used by FindRulesByImport. -/
def buildImportIndex (ix : RuleIndex) : RuleIndex :=
  { ix with importMap := buildImportMap (enumFrom 0 ix.rules) [] }

/-- The `for _, r := range ix.rules { ix.collectEmbeds(r) }` loop of Finish,
iterating over record positions. -/
def finishLoop (fuel : Nat) : RuleIndex → List Nat → Except CEErr RuleIndex
  | ix, [] => .ok ix
  | ix, i :: rest =>
    match collectEmbedsF fuel ix i with
    | .error e => .error e
    | .ok ix' => finishLoop fuel ix' rest

/-- Finish constructs the import index after all rules have been added.  The
fuel `rules.length + 1` bounds the recursion depth of `collectEmbeds`; the
bound is proved sufficient below. -/
def RuleIndex.Finish (ix : RuleIndex) : Except CEErr RuleIndex :=
  match finishLoop (ix.rules.length + 1) ix (List.range ix.rules.length) with
  | .error e => .error e
  | .ok m => .ok { buildImportIndex m with didFinish := true }

/-- FindRulesByImport attempts to resolve an import string to rule records. -/
def RuleIndex.FindRulesByImport (ix : RuleIndex) (imp : ImportSpec) (lang : String) :
    List FindResult :=
  let ms := importMapGet ix.importMap imp
  ms.filterMap (fun j =>
    match nth ix.rules j with
    | none => none    -- unreachable: importMap holds valid records
    | some m =>
      if m.lang = lang then some { label := m.label, embeds := m.embeds } else none)

/-- FindRulesByImportWithConfig resolves an import first by checking the rule
index, then, if no matches are found, by calling every registered
CrossResolver in order. -/
def RuleIndex.FindRulesByImportWithConfig (ix : RuleIndex) (c : Config)
    (imp : ImportSpec) (lang : String) : List FindResult :=
  let results := ix.FindRulesByImport imp lang
  if results.length > 0 then results
  else ix.crossResolvers.foldl (fun acc cr => acc ++ cr c imp lang) results

/-- IsSelfImport returns true if the result's label matches the given label or
the result's rule transitively embeds the rule with the given label. -/
def FindResult.IsSelfImport (r : FindResult) (frm : Label) : Bool :=
  frm == r.label || r.embeds.any (fun e => frm == e)

/-! ### Well-formedness of an index in the registration phase

These predicates record exactly what holds for every index produced by
`NewRuleIndex` followed by any sequence of successful `AddRule` calls. -/

/-- The label map is precisely the enumeration of the records' labels. -/
def labelMapEq (ix : RuleIndex) : Prop :=
  ix.labelMap = (enumFrom 0 ix.rules).map (fun p => (p.2.label, p.1))

/-- The records' labels are pairwise distinct. -/
def labelsNodup (ix : RuleIndex) : Prop :=
  (ix.rules.map (fun rc => rc.label)).Nodup

/-- Every record's provider lookup succeeds and agrees with its stored
language (true in any run because `mrslv` is a fixed function and `AddRule`
stores `rslv.name` for the resolver it found). -/
def providerOk (ix : RuleIndex) : Prop :=
  ∀ k rc, nth ix.rules k = some rc →
    ∃ rslv, ix.mrslv rc.rule rc.file.pkg = some rslv ∧ rslv.name = rc.lang

/-- Every record's label is absolute (labels are built by `label.New`). -/
def labelsAbs (ix : RuleIndex) : Prop :=
  ∀ k rc, nth ix.rules k = some rc → rc.label.relative = false

/-- The full registration-phase invariant. -/
structure Wf (ix : RuleIndex) : Prop where
  lmap : labelMapEq ix
  nodup : labelsNodup ix
  provider : providerOk ix
  abs : labelsAbs ix

/-- An index on which `Finish` has not yet begun: no closure state is set. -/
structure PreFinish (ix : RuleIndex) : Prop where
  flags : ∀ k rc, nth ix.rules k = some rc →
    rc.didCollectEmbeds = false ∧ rc.embedded = false ∧ rc.embeds = []
  notFinished : ix.didFinish = false

/-- Executable check for `Wf`, used to discharge it on concrete indexes. -/
def wfCheck (ix : RuleIndex) : Bool :=
  decide (ix.labelMap = (enumFrom 0 ix.rules).map (fun p => (p.2.label, p.1))) &&
  decide ((ix.rules.map (fun rc => rc.label)).Nodup) &&
  ix.rules.all (fun rc =>
    match ix.mrslv rc.rule rc.file.pkg with
    | some rslv => rslv.name == rc.lang
    | none => false) &&
  ix.rules.all (fun rc => !rc.label.relative)

/-- Executable check for `PreFinish`. -/
def preFinishCheck (ix : RuleIndex) : Bool :=
  ix.rules.all (fun rc => !rc.didCollectEmbeds && !rc.embedded && rc.embeds.isEmpty) &&
  !ix.didFinish

theorem wf_of_check (ix : RuleIndex) (h : wfCheck ix = true) : Wf ix := by
  simp only [wfCheck, Bool.and_eq_true, List.all_eq_true, decide_eq_true_eq] at h
  obtain ⟨⟨⟨h1, h2⟩, h3⟩, h4⟩ := h
  refine ⟨h1, h2, ?_, ?_⟩
  · intro k rc hk
    have := h3 rc (mem_of_nth_some _ _ _ hk)
    revert this
    cases hrs : ix.mrslv rc.rule rc.file.pkg with
    | none => intro h; simp at h
    | some rslv =>
      intro h
      exact ⟨rslv, rfl, by simpa using h⟩
  · intro k rc hk
    have := h4 rc (mem_of_nth_some _ _ _ hk)
    simpa using this

theorem preFinish_of_check (ix : RuleIndex) (h : preFinishCheck ix = true) :
    PreFinish ix := by
  simp only [preFinishCheck, Bool.and_eq_true, List.all_eq_true] at h
  obtain ⟨h1, h2⟩ := h
  refine ⟨?_, by simpa using h2⟩
  intro k rc hk
  have := h1 rc (mem_of_nth_some _ _ _ hk)
  simp only [Bool.and_eq_true, Bool.not_eq_eq_eq_not, Bool.not_true, List.isEmpty_iff] at this
  exact ⟨by simpa using this.1.1, by simpa using this.1.2, this.2⟩

/-! ### Helpers for stating concrete scenarios -/

/-- Result of `AddRule`, defaulting to the unchanged index (for closed
statements about concrete inputs; never hides an abort in the theorems that
care about aborting). -/
def addD (ix : RuleIndex) (c : Config) (r : Rule) (f : File) : RuleIndex :=
  (ix.AddRule c r f).getD ix

/-- Result of `Finish`, defaulting to the input index on error. -/
def finishD (ix : RuleIndex) : RuleIndex :=
  match ix.Finish with
  | .ok m => m
  | .error _ => ix

/-- The record at position `k`, defaulting to a junk record. -/
def recD (ix : RuleIndex) (k : Nat) : RuleRecord :=
  (nth ix.rules k).getD default

/-- An absolute label in package `pkg` of the main repository. -/
def lbl (n : String) : Label := { repo := "", pkg := "pkg", name := n, relative := false }

def pkgFile : File := { pkg := "pkg" }

def cfg0 : Config := { repoName := "", langs := [] }

/-! ### Basic facts about lookup and AddRule -/

theorem nth_of_mem {α : Type} : ∀ (l : List α) (a : α), a ∈ l → ∃ i, nth l i = some a := by
  intro l
  induction l with
  | nil => intro a h; simp at h
  | cons b l ih =>
    intro a h
    rcases List.mem_cons.mp h with h | h
    · exact ⟨0, by simp [h]⟩
    · obtain ⟨i, hi⟩ := ih a h
      exact ⟨i + 1, by simpa using hi⟩

theorem lookupLabel_isSome_of_mem : ∀ (m : List (Label × Nat)) (l : Label) (j : Nat),
    (l, j) ∈ m → (lookupLabel m l).isSome = true := by
  intro m
  induction m with
  | nil => intro l j h; simp at h
  | cons p m ih =>
    intro l j h
    rcases List.mem_cons.mp h with h | h
    · simp [lookupLabel, ← h]
    · by_cases hp : p.1 = l
      · simp [lookupLabel, hp]
      · simp only [lookupLabel, if_neg hp]
        exact ih l j h

theorem lookupLabel_none_of_forall : ∀ (m : List (Label × Nat)) (l : Label),
    (∀ p ∈ m, p.1 ≠ l) → lookupLabel m l = none := by
  intro m
  induction m with
  | nil => intro l _; rfl
  | cons p m ih =>
    intro l h
    simp only [lookupLabel, if_neg (h p (List.mem_cons_self p m))]
    exact ih l (fun q hq => h q (List.mem_cons_of_mem p hq))

/-- Under `labelMapEq`, a label whose lookup fails appears on no record. -/
theorem label_not_recorded_of_lookup_none (ix : RuleIndex) (hmap : labelMapEq ix)
    (l : Label) (h : lookupLabel ix.labelMap l = none) :
    ∀ rc ∈ ix.rules, rc.label ≠ l := by
  intro rc hrc hlab
  obtain ⟨k, hk⟩ := nth_of_mem _ _ hrc
  have hmem : (k, rc) ∈ enumFrom 0 ix.rules := by
    rw [mem_enumFrom]
    exact ⟨k, hk, by omega⟩
  have : (rc.label, k) ∈ ix.labelMap := by
    rw [hmap]
    exact List.mem_map.mpr ⟨(k, rc), hmem, rfl⟩
  have := lookupLabel_isSome_of_mem _ _ _ (hlab ▸ this)
  rw [h] at this
  simp at this

theorem passesLanguageFilter_eq_false (langFilter : List String) (langName : String)
    (hne : langFilter ≠ []) (hnm : langName ∉ langFilter) :
    passesLanguageFilter langFilter langName = false := by
  cases langFilter with
  | nil => exact absurd rfl hne
  | cons a l =>
    simp only [passesLanguageFilter, List.isEmpty_cons, Bool.false_eq_true, if_false]
    apply Bool.eq_false_iff.mpr
    intro hany
    rw [List.any_eq_true] at hany
    obtain ⟨x, hx, hbeq⟩ := hany
    rw [beq_iff_eq] at hbeq
    exact hnm (hbeq ▸ hx)

theorem AddRule_didFinish (ix : RuleIndex) (c : Config) (r : Rule) (f : File)
    (h : ix.didFinish = true) : ix.AddRule c r f = none := by
  simp [RuleIndex.AddRule, h]

theorem AddRule_imps_none (ix : RuleIndex) (c : Config) (r : Rule) (f : File)
    (h0 : ix.didFinish = false) (h : (addRuleLangImps ix c r f).2 = none) :
    ix.AddRule c r f = some ix := by
  unfold RuleIndex.AddRule
  rw [h0]
  simp only [Bool.false_eq_true, if_false]
  rcases hE : addRuleLangImps ix c r f with ⟨lang, imps?⟩
  rw [hE] at h
  cases imps? with
  | none => rfl
  | some imps => simp at h

theorem AddRule_dup (ix : RuleIndex) (c : Config) (r : Rule) (f : File)
    (lang : String) (imps : List ImportSpec) (j : Nat)
    (h0 : ix.didFinish = false)
    (hE : addRuleLangImps ix c r f = (lang, some imps))
    (hdup : lookupLabel ix.labelMap (newRecord c r f imps lang).label = some j) :
    ix.AddRule c r f = some ix := by
  unfold RuleIndex.AddRule
  rw [h0]
  simp only [Bool.false_eq_true, if_false]
  rw [hE]
  dsimp only
  rw [hdup]

theorem AddRule_new (ix : RuleIndex) (c : Config) (r : Rule) (f : File)
    (lang : String) (imps : List ImportSpec)
    (h0 : ix.didFinish = false)
    (hE : addRuleLangImps ix c r f = (lang, some imps))
    (hnew : lookupLabel ix.labelMap (newRecord c r f imps lang).label = none) :
    ix.AddRule c r f =
      some { ix with
              rules := ix.rules ++ [newRecord c r f imps lang],
              labelMap := ix.labelMap ++
                [((newRecord c r f imps lang).label, ix.rules.length)] } := by
  unfold RuleIndex.AddRule
  rw [h0]
  simp only [Bool.false_eq_true, if_false]
  rw [hE]
  dsimp only
  rw [hnew]

/-- Every successful AddRule either leaves the index unchanged or appends one
fresh record together with its label-map entry. -/
theorem AddRule_some_cases (ix : RuleIndex) (c : Config) (r : Rule) (f : File)
    (ix' : RuleIndex) (h : ix.AddRule c r f = some ix') :
    ix' = ix ∨
    ∃ lang imps,
      addRuleLangImps ix c r f = (lang, some imps) ∧
      lookupLabel ix.labelMap (newRecord c r f imps lang).label = none ∧
      ix' = { ix with
               rules := ix.rules ++ [newRecord c r f imps lang],
               labelMap := ix.labelMap ++
                 [((newRecord c r f imps lang).label, ix.rules.length)] } := by
  unfold RuleIndex.AddRule at h
  by_cases h0 : ix.didFinish
  · rw [if_pos h0] at h; simp at h
  · rw [if_neg h0] at h
    rcases hE : addRuleLangImps ix c r f with ⟨lang, imps?⟩
    rw [hE] at h
    cases imps? with
    | none =>
      left
      simpa using h.symm
    | some imps =>
      dsimp only at h
      rcases hL : lookupLabel ix.labelMap (newRecord c r f imps lang).label with _ | j
      · rw [hL] at h
        right
        exact ⟨lang, imps, rfl, hL, by simpa using h.symm⟩
      · rw [hL] at h
        left
        simpa using h.symm

theorem nodup_append_single {α : Type} (l : List α) (a : α) :
    (l ++ [a]).Nodup ↔ l.Nodup ∧ a ∉ l := by
  induction l with
  | nil => simp
  | cons b l ih =>
    simp only [List.cons_append, List.nodup_cons, ih, List.mem_append,
      List.mem_singleton, List.mem_cons, eq_comm]
    tauto

/-! ### Concrete scenarios used by counterexamples and witnesses -/

/-- Chain scenario resolver (language "go"): rule `a` embeds `b`, rule `c`
embeds `a`, every rule declares the import `pkg/<name>`. -/
def chainRes : Resolver :=
  { name := "go",
    imports := fun _ r _ => some [{ lang := "go", imp := "pkg/" ++ r.name }],
    embeds := fun r _ =>
      if r.name = "a" then [lbl "b"] else if r.name = "c" then [lbl "a"] else [] }

def ruleA : Rule := { name := "a", kind := "lib" }
def ruleB : Rule := { name := "b", kind := "lib" }
def ruleC : Rule := { name := "c", kind := "lib" }

def exChainIx : RuleIndex :=
  addD (addD (addD (NewRuleIndex (fun _ _ => some chainRes) []) cfg0 ruleB pkgFile)
    cfg0 ruleA pkgFile) cfg0 ruleC pkgFile

def exChainFin : RuleIndex := finishD exChainIx

/-- Cross-language scenario: `a` ("go") embeds `b` ("proto"); `c` ("proto")
also embeds `b`. -/
def crossGoRes : Resolver :=
  { name := "go",
    imports := fun _ r _ => some [{ lang := "go", imp := "pkg/" ++ r.name }],
    embeds := fun r _ => if r.name = "a" then [lbl "b"] else [] }

def crossProtoRes : Resolver :=
  { name := "proto",
    imports := fun _ r _ => some [{ lang := "proto", imp := r.name ++ ".proto" }],
    embeds := fun r _ => if r.name = "c" then [lbl "b"] else [] }

def crossMrslv : Rule → String → Option Resolver := fun r _ =>
  if r.kind = "go" then some crossGoRes
  else if r.kind = "proto" then some crossProtoRes
  else none

def ruleAGo : Rule := { name := "a", kind := "go" }
def ruleBProto : Rule := { name := "b", kind := "proto" }
def ruleCProto : Rule := { name := "c", kind := "proto" }

def exCrossIx : RuleIndex :=
  addD (addD (addD (NewRuleIndex crossMrslv []) cfg0 ruleBProto pkgFile)
    cfg0 ruleAGo pkgFile) cfg0 ruleCProto pkgFile

def exCrossFin : RuleIndex := finishD exCrossIx

/-- Cross-language scenario without the extra proto embedder, for C3. -/
def exCross2Ix : RuleIndex :=
  addD (addD (NewRuleIndex crossMrslv []) cfg0 ruleBProto pkgFile)
    cfg0 ruleAGo pkgFile

def exCross2Fin : RuleIndex := finishD exCross2Ix

/-- Language-filter scenario: provider "go" found, allow-list ["proto"]. -/
def filterCfg : Config := { repoName := "", langs := ["proto"] }

def ruleX : Rule := { name := "x", kind := "go" }

def exFilterBase : RuleIndex := NewRuleIndex (fun _ _ => some crossGoRes) []

def exFilterIx : RuleIndex := addD exFilterBase filterCfg ruleX pkgFile

/-- Duplicate-label scenario: two different rules named "b". -/
def ruleB2 : Rule := { name := "b", kind := "other" }

def exDup1 : RuleIndex :=
  addD (NewRuleIndex (fun _ _ => some chainRes) []) cfg0 ruleB pkgFile

/-! ### C1 -/

/-- C1 as written is false: when a provider is found but the language
allow-list is non-empty and excludes it, `imps` stays nil and `AddRule`
returns before creating a record, so after `Finish` the label map is empty —
the rule is not recorded at all.  Here the provider lookup succeeds with
resolver "go", the allow-list is the non-empty ["proto"], and yet no record
for the rule's label (indeed no record at all) exists after Finish. -/
theorem claimC1_counterexample :
    exFilterBase.mrslv ruleX pkgFile.pkg = some crossGoRes ∧
    filterCfg.langs ≠ [] ∧
    crossGoRes.name ∉ filterCfg.langs ∧
    lookupLabel (finishD exFilterIx).labelMap
      (label.new filterCfg.repoName pkgFile.pkg ruleX.name) = none ∧
    (finishD exFilterIx).rules = [] :=
  ⟨rfl, by decide, by decide, rfl, rfl⟩

/-- C1 amended: if a provider is found but the caller's language allow-list
is non-empty and excludes the provider's name, the rule is dropped entirely:
`AddRule` collects no imports and returns with the index unchanged, so no
record for the rule's label is ever created. -/
theorem claimC1_theorem :
    ∀ (ix : RuleIndex) (c : Config) (r : Rule) (f : File) (rslv : Resolver),
      ix.didFinish = false →
      ix.mrslv r f.pkg = some rslv →
      c.langs ≠ [] →
      rslv.name ∉ c.langs →
      ix.AddRule c r f = some ix := by
  intro ix c r f rslv h0 h1 h2 h3
  apply AddRule_imps_none ix c r f h0
  unfold addRuleLangImps
  rw [h1]
  dsimp only
  rw [passesLanguageFilter_eq_false c.langs rslv.name h2 h3]
  simp

/-- Witness for C1's amended theorem at a concrete input. -/
theorem claimC1_witness :
    exFilterBase.AddRule filterCfg ruleX pkgFile = some exFilterBase :=
  claimC1_theorem exFilterBase filterCfg ruleX pkgFile crossGoRes rfl rfl
    (by decide) (by decide)

/-! ### C8 -/

/-- C8: a duplicate label is rejected without aborting: the call returns the
index unchanged (first registration wins); and every successful AddRule
preserves the pairwise distinctness of the recorded labels. -/
theorem claimC8_theorem :
    (∀ (ix : RuleIndex) (c : Config) (r : Rule) (f : File),
        ix.didFinish = false →
        (lookupLabel ix.labelMap (label.new c.repoName f.pkg r.name)).isSome = true →
        ix.AddRule c r f = some ix) ∧
    (∀ (ix : RuleIndex) (c : Config) (r : Rule) (f : File) (ix' : RuleIndex),
        labelMapEq ix → labelsNodup ix →
        ix.AddRule c r f = some ix' → labelsNodup ix') := by
  constructor
  · intro ix c r f h0 hdup
    rcases hE : addRuleLangImps ix c r f with ⟨lang, imps?⟩
    cases imps? with
    | none => exact AddRule_imps_none ix c r f h0 (by rw [hE])
    | some imps =>
      rcases hL : lookupLabel ix.labelMap (newRecord c r f imps lang).label with _ | j
      · exfalso
        have : (newRecord c r f imps lang).label = label.new c.repoName f.pkg r.name := rfl
        rw [this] at hL
        rw [hL] at hdup
        simp at hdup
      · exact AddRule_dup ix c r f lang imps j h0 hE hL
  · intro ix c r f ix' hmap hnd h
    rcases AddRule_some_cases ix c r f ix' h with h | ⟨lang, imps, hE, hL, h⟩
    · rw [h]; exact hnd
    · rw [h]
      unfold labelsNodup at hnd ⊢
      simp only [List.map_append, List.map_cons, List.map_nil]
      rw [nodup_append_single]
      refine ⟨hnd, ?_⟩
      intro hmem
      obtain ⟨rc, hrc, hlab⟩ := List.mem_map.mp hmem
      exact label_not_recorded_of_lookup_none ix hmap _ hL rc hrc hlab

/-- Witness for C8 at a concrete input: re-adding a rule labelled
`//pkg:b` leaves the one-record index unchanged. -/
theorem claimC8_witness :
    exDup1.AddRule cfg0 ruleB2 pkgFile = some exDup1 :=
  claimC8_theorem.1 exDup1 cfg0 ruleB2 pkgFile rfl (by decide)

/-! ### C9 -/

/-- C9: calling AddRule on a finished index aborts the process (modelled as
`none`: no successor state exists, in particular no change to the records),
and every index produced by Finish is in that finished state. -/
theorem claimC9_theorem :
    (∀ (ix : RuleIndex) (c : Config) (r : Rule) (f : File),
        ix.didFinish = true → ix.AddRule c r f = none) ∧
    (∀ (ix ixF : RuleIndex), ix.Finish = .ok ixF →
        ∀ (c : Config) (r : Rule) (f : File), ixF.AddRule c r f = none) := by
  constructor
  · exact fun ix c r f h => AddRule_didFinish ix c r f h
  · intro ix ixF hF c r f
    apply AddRule_didFinish
    unfold RuleIndex.Finish at hF
    rcases hFL : finishLoop (ix.rules.length + 1) ix (List.range ix.rules.length)
      with e | m
    · rw [hFL] at hF; simp at hF
    · rw [hFL] at hF
      simp only [Except.ok.injEq] at hF
      rw [← hF]

/-- Witness for C9: adding to the finished chain index aborts. -/
theorem claimC9_witness :
    exChainFin.AddRule cfg0 ruleX pkgFile = none :=
  claimC9_theorem.2 exChainIx exChainFin rfl cfg0 ruleX pkgFile

/-! ### The import map built by buildImportIndex -/

theorem importMapGet_map_ne : ∀ (m : List (ImportSpec × List Nat)) (imp imp' : ImportSpec)
    (i : Nat), imp' ≠ imp →
    importMapGet (m.map (fun p => if p.1 = imp then (p.1, p.2 ++ [i]) else p)) imp'
      = importMapGet m imp' := by
  intro m
  induction m with
  | nil => intro imp imp' i _; rfl
  | cons p t ih =>
    intro imp imp' i hne
    simp only [List.map_cons]
    by_cases hp : p.1 = imp
    · rw [if_pos hp]
      simp only [importMapGet]
      rw [if_neg (by rw [hp]; exact fun hc => hne hc.symm),
          if_neg (by rw [hp]; exact fun hc => hne hc.symm)]
      exact ih imp imp' i hne
    · rw [if_neg hp]
      simp only [importMapGet]
      by_cases hp' : p.1 = imp'
      · rw [if_pos hp', if_pos hp']
      · rw [if_neg hp', if_neg hp']
        exact ih imp imp' i hne

theorem importMapGet_map_self : ∀ (m : List (ImportSpec × List Nat)) (imp : ImportSpec)
    (i : Nat), importMapHas m imp = true →
    importMapGet (m.map (fun p => if p.1 = imp then (p.1, p.2 ++ [i]) else p)) imp
      = importMapGet m imp ++ [i] := by
  intro m
  induction m with
  | nil => intro imp i h; simp [importMapHas] at h
  | cons p t ih =>
    intro imp i h
    simp only [List.map_cons]
    by_cases hp : p.1 = imp
    · rw [if_pos hp]
      simp only [importMapGet]
      rw [if_pos hp, if_pos hp]
    · rw [if_neg hp]
      simp only [importMapGet]
      rw [if_neg hp, if_neg hp]
      apply ih imp i
      simp only [importMapHas, Bool.or_eq_true, decide_eq_true_eq] at h
      rcases h with h | h
      · exact absurd h hp
      · exact h

theorem importMapGet_append_absent : ∀ (m : List (ImportSpec × List Nat))
    (imp imp' : ImportSpec) (i : Nat), importMapHas m imp = false →
    importMapGet (m ++ [(imp, [i])]) imp'
      = if imp' = imp then importMapGet m imp ++ [i] else importMapGet m imp' := by
  intro m
  induction m with
  | nil =>
    intro imp imp' i _
    simp only [List.nil_append, importMapGet]
    by_cases h : imp' = imp
    · rw [if_pos (by rw [h]), if_pos h]
    · rw [if_neg (fun hc => h hc.symm), if_neg h]
  | cons p t ih =>
    intro imp imp' i h
    simp only [importMapHas, Bool.or_eq_false_iff, decide_eq_false_iff_not] at h
    have htail := ih imp imp' i h.2
    simp only [List.cons_append, importMapGet, List.append_eq] at htail ⊢
    by_cases hp : p.1 = imp'
    · rw [if_pos hp]
      rw [if_neg (fun hc : imp' = imp => h.1 (hp.trans hc))]
      rw [if_pos hp]
    · rw [if_neg hp, if_neg hp, htail]
      by_cases he : imp' = imp
      · rw [if_pos he, if_pos he, if_neg h.1]
      · rw [if_neg he, if_neg he]

theorem importMapGet_importMapAppend (m : List (ImportSpec × List Nat))
    (imp imp' : ImportSpec) (i : Nat) :
    importMapGet (importMapAppend m imp i) imp'
      = if imp' = imp then importMapGet m imp ++ [i] else importMapGet m imp' := by
  unfold importMapAppend
  by_cases hh : importMapHas m imp
  · rw [if_pos hh]
    by_cases he : imp' = imp
    · rw [if_pos he, he]
      exact importMapGet_map_self m imp i hh
    · rw [if_neg he]
      exact importMapGet_map_ne m imp imp' i he
  · rw [if_neg hh]
    exact importMapGet_append_absent m imp imp' i (by simpa using hh)

theorem importMapGet_dedupAdd : ∀ (imps indexed : List ImportSpec)
    (m : List (ImportSpec × List Nat)) (i : Nat) (imp' : ImportSpec),
    importMapGet (dedupAdd i imps indexed m) imp'
      = importMapGet m imp' ++
        (if imp' ∈ imps ∧ imp' ∉ indexed then [i] else []) := by
  intro imps
  induction imps with
  | nil =>
    intro indexed m i imp'
    simp [dedupAdd]
  | cons imp rest ih =>
    intro indexed m i imp'
    simp only [dedupAdd]
    by_cases hin : imp ∈ indexed
    · rw [if_pos hin, ih]
      have hiff : (imp' ∈ rest ∧ imp' ∉ indexed) ↔ (imp' ∈ imp :: rest ∧ imp' ∉ indexed) := by
        constructor
        · rintro ⟨h1, h2⟩
          exact ⟨List.mem_cons_of_mem _ h1, h2⟩
        · rintro ⟨h1, h2⟩
          rcases List.mem_cons.mp h1 with h1 | h1
          · exact absurd (h1 ▸ hin) h2
          · exact ⟨h1, h2⟩
      rw [if_congr hiff rfl rfl]
    · rw [if_neg hin, ih, importMapGet_importMapAppend]
      by_cases he : imp' = imp
      · subst he
        rw [if_pos rfl]
        have h1 : ¬(imp' ∈ rest ∧ imp' ∉ indexed ++ [imp']) := by
          rintro ⟨_, h2⟩
          exact h2 (List.mem_append_right _ (List.mem_singleton.mpr rfl))
        have h2 : imp' ∈ imp' :: rest ∧ imp' ∉ indexed :=
          ⟨List.mem_cons_self _ _, hin⟩
        rw [if_neg h1, if_pos h2, List.append_nil]
      · rw [if_neg he]
        have hiff : (imp' ∈ rest ∧ imp' ∉ indexed ++ [imp])
            ↔ (imp' ∈ imp :: rest ∧ imp' ∉ indexed) := by
          constructor
          · rintro ⟨h1, h2⟩
            refine ⟨List.mem_cons_of_mem _ h1, fun hc => h2 (List.mem_append_left _ hc)⟩
          · rintro ⟨h1, h2⟩
            rcases List.mem_cons.mp h1 with h1 | h1
            · exact absurd h1 he
            · refine ⟨h1, fun hc => ?_⟩
              rcases List.mem_append.mp hc with hc | hc
              · exact h2 hc
              · exact he (List.mem_singleton.mp hc)
        rw [if_congr hiff rfl rfl]

theorem importMapGet_buildImportMap : ∀ (L : List (Nat × RuleRecord))
    (m : List (ImportSpec × List Nat)) (imp : ImportSpec),
    importMapGet (buildImportMap L m) imp
      = importMapGet m imp ++
        (L.filter (fun p => !p.2.embedded && decide (imp ∈ p.2.importedAs))).map
          (fun p => p.1) := by
  intro L
  induction L with
  | nil => intro m imp; simp [buildImportMap]
  | cons p rest ih =>
    intro m imp
    obtain ⟨i, r⟩ := p
    simp only [buildImportMap]
    by_cases hemb : r.embedded
    · rw [if_pos hemb, ih]
      simp [List.filter_cons, hemb]
    · rw [if_neg hemb, ih, importMapGet_dedupAdd]
      simp only [List.filter_cons, List.not_mem_nil, not_false_iff, and_true, hemb,
        Bool.not_false, Bool.true_and]
      by_cases hmem : imp ∈ r.importedAs
      · rw [if_pos hmem]
        simp [hmem, List.append_assoc]
      · rw [if_neg hmem]
        simp [hmem]

/-- Membership in a bucket of the freshly built import map. -/
theorem bucket_mem_iff (rs : List RuleRecord) (imp : ImportSpec) (j : Nat) :
    j ∈ importMapGet (buildImportMap (enumFrom 0 rs) []) imp ↔
    ∃ rc, nth rs j = some rc ∧ rc.embedded = false ∧ imp ∈ rc.importedAs := by
  rw [importMapGet_buildImportMap]
  simp only [importMapGet, List.nil_append, List.mem_map, List.mem_filter]
  constructor
  · rintro ⟨⟨j', rc⟩, ⟨hpmem, hpred⟩, hj⟩
    simp only at hj
    subst hj
    obtain ⟨k, hk, hj0⟩ := (mem_enumFrom rs 0 j' rc).mp hpmem
    have : k = j' := by omega
    subst this
    simp only [Bool.and_eq_true, Bool.not_eq_eq_eq_not, Bool.not_true,
      decide_eq_true_eq] at hpred
    exact ⟨rc, hk, by simpa using hpred.1, hpred.2⟩
  · rintro ⟨rc, hk, hemb, himp⟩
    refine ⟨(j, rc), ⟨(mem_enumFrom rs 0 j rc).mpr ⟨j, hk, by omega⟩, ?_⟩, rfl⟩
    simp [hemb, himp]

/-- What a query result is: a bucket member of matching language. -/
theorem findRules_mem_iff (ix : RuleIndex) (imp : ImportSpec) (lang : String)
    (res : FindResult) :
    res ∈ ix.FindRulesByImport imp lang ↔
    ∃ j rc, j ∈ importMapGet ix.importMap imp ∧ nth ix.rules j = some rc ∧
      rc.lang = lang ∧ res = { label := rc.label, embeds := rc.embeds } := by
  unfold RuleIndex.FindRulesByImport
  rw [List.mem_filterMap]
  constructor
  · rintro ⟨j, hj, hmap⟩
    cases hrc : nth ix.rules j with
    | none => rw [hrc] at hmap; cases hmap
    | some rc =>
      rw [hrc] at hmap
      dsimp only at hmap
      by_cases hlang : rc.lang = lang
      · rw [if_pos hlang] at hmap
        simp only [Option.some.injEq] at hmap
        exact ⟨j, rc, hj, hrc, hlang, hmap.symm⟩
      · rw [if_neg hlang] at hmap
        cases hmap
  · rintro ⟨j, rc, hj, hrc, hlang, hres⟩
    refine ⟨j, hj, ?_⟩
    rw [hrc]
    dsimp only
    rw [if_pos hlang, hres]

/-- Decomposing a successful `Finish` into its closure phase and the index
build. -/
theorem Finish_ok_elim (ix ixF : RuleIndex) (h : ix.Finish = .ok ixF) :
    ∃ m, finishLoop (ix.rules.length + 1) ix (List.range ix.rules.length) = .ok m ∧
      ixF = { buildImportIndex m with didFinish := true } := by
  unfold RuleIndex.Finish at h
  cases hFL : finishLoop (ix.rules.length + 1) ix (List.range ix.rules.length) with
  | error e => rw [hFL] at h; cases h
  | ok m =>
    rw [hFL] at h
    simp only [Except.ok.injEq] at h
    exact ⟨m, rfl, h.symm⟩

/-! ### C5 -/

theorem foldl_append_eq_bind (c : Config) (imp : ImportSpec) (lang : String) :
    ∀ (l : List CrossResolver) (acc : List FindResult),
      l.foldl (fun acc cr => acc ++ cr c imp lang) acc
        = acc ++ l.flatMap (fun cr => cr c imp lang) := by
  intro l
  induction l with
  | nil => intro acc; simp
  | cons cr l ih => intro acc; simp [ih]

/-- C5: when the direct lookup is empty, FindRulesByImportWithConfig is
exactly the concatenation, in registration order, of the CrossResolvers'
outputs; when the direct lookup is non-empty it is returned as-is (the
fold over `crossResolvers` is never entered). -/
theorem claimC5_theorem :
    ∀ (ix : RuleIndex) (c : Config) (imp : ImportSpec) (lang : String),
      (ix.FindRulesByImport imp lang = [] →
        ix.FindRulesByImportWithConfig c imp lang
          = ix.crossResolvers.flatMap (fun cr => cr c imp lang)) ∧
      (ix.FindRulesByImport imp lang ≠ [] →
        ix.FindRulesByImportWithConfig c imp lang = ix.FindRulesByImport imp lang) := by
  intro ix c imp lang
  constructor
  · intro h
    unfold RuleIndex.FindRulesByImportWithConfig
    rw [h]
    simp [foldl_append_eq_bind]
  · intro h
    have hl : 0 < (ix.FindRulesByImport imp lang).length := List.length_pos.mpr h
    unfold RuleIndex.FindRulesByImportWithConfig
    rw [if_pos hl]

/-- Cross resolvers used by the C5 witness. -/
def crRes1 : CrossResolver := fun _ _ _ => [{ label := lbl "r1", embeds := [] }]
def crRes2 : CrossResolver := fun _ _ _ => [{ label := lbl "r2", embeds := [] }]

def exCrIx : RuleIndex := NewRuleIndex (fun _ _ => none) [crRes1, crRes2]

def exQuerySpec : ImportSpec := { lang := "go", imp := "pkg/b" }

/-- Witness for C5 at concrete inputs: an index with no rules falls back to
the two cross resolvers in order; the finished chain index, whose direct
lookup is non-empty, returns the direct result unchanged. -/
theorem claimC5_witness :
    (exCrIx.FindRulesByImportWithConfig cfg0 exQuerySpec "go"
      = exCrIx.crossResolvers.flatMap (fun cr => cr cfg0 exQuerySpec "go")) ∧
    (exChainFin.FindRulesByImportWithConfig cfg0 exQuerySpec "go"
      = exChainFin.FindRulesByImport exQuerySpec "go") :=
  ⟨(claimC5_theorem exCrIx cfg0 exQuerySpec "go").1 (by decide),
   (claimC5_theorem exChainFin cfg0 exQuerySpec "go").2 (by decide)⟩

/-! ### C3 -/

/-- C3 exhibits a divergence between the code and the `embeds` field's own
documentation ("This only includes rules in the same language"): in the
cross-language scenario, rule `a` (language "go") embeds rule `b` (language
"proto"); after Finish, `a`'s embeds field contains `//pkg:b` — the label of
the "proto" rule — even though `b` is not of `a`'s language (`b` is the only
record with that label, and is not even hidden: its embedded flag is false).
The direct embed labels are stored unfiltered before resolution, so
cross-language, unresolvable and relative labels all stay in `embeds`. -/
theorem claimC3_theorem :
    (recD exCross2Fin 1).lang = "go" ∧
    (recD exCross2Fin 1).embeds = [lbl "b"] ∧
    (recD exCross2Fin 0).label = lbl "b" ∧
    (recD exCross2Fin 0).lang = "proto" ∧
    (recD exCross2Fin 0).embedded = false ∧
    exCross2Fin.rules.length = 2 ∧
    (∀ k, k < exCross2Fin.rules.length → (recD exCross2Fin k).label = lbl "b" → k = 0) := by
  decide

/-! ### C2 counterexample -/

/-- C2 as written is false: in the chain `c` embeds `a` embeds `b` (all
language "go"), the pair (A, B) := (`a`, `b`) satisfies the claim's premises —
both indexed, same language, `a` embeds `b`, and `{"go","pkg/b"}` is declared
only by `b` — yet the query for `{"go","pkg/b"}` returns no result labelled
`//pkg:a` (it returns only `//pkg:c`, because `a` is itself embedded by `c`
and hence excluded from the import index). -/
theorem claimC2_counterexample :
    (recD exChainIx 1).lang = "go" ∧
    (recD exChainIx 0).lang = "go" ∧
    (recD exChainIx 1).label = lbl "a" ∧
    (recD exChainIx 0).label = lbl "b" ∧
    chainRes.embeds ruleA (lbl "a") = [lbl "b"] ∧
    exChainIx.mrslv ruleA "pkg" = some chainRes ∧
    (recD exChainIx 0).importedAs = [{ lang := "go", imp := "pkg/b" }] ∧
    (recD exChainIx 1).importedAs = [{ lang := "go", imp := "pkg/a" }] ∧
    (recD exChainIx 2).importedAs = [{ lang := "go", imp := "pkg/c" }] ∧
    exChainIx.rules.length = 3 ∧
    exChainFin.FindRulesByImport { lang := "go", imp := "pkg/b" } "go" ≠ [] ∧
    (∀ res ∈ exChainFin.FindRulesByImport { lang := "go", imp := "pkg/b" } "go",
      res.label ≠ lbl "a") :=
  ⟨by decide, by decide, by decide, by decide, by decide, rfl, by decide, by decide,
   by decide, by decide, by decide, by decide⟩

/-! ### C4 counterexample -/

/-- C4 as written is false: with `a` ("go") embedding `b` ("proto") — the
claim's premises for the pair (A, B) — and a third rule `c` ("proto") also
embedding `b`, `b`'s embedded flag does not "remain false": `c` is of `b`'s
language and marks it embedded. -/
theorem claimC4_counterexample :
    (recD exCrossIx 1).lang = "go" ∧
    (recD exCrossIx 0).lang = "proto" ∧
    (recD exCrossIx 1).label = lbl "a" ∧
    (recD exCrossIx 0).label = lbl "b" ∧
    crossGoRes.embeds ruleAGo (lbl "a") = [lbl "b"] ∧
    exCrossIx.mrslv ruleAGo "pkg" = some crossGoRes ∧
    (recD exCrossIx 0).embedded = false ∧
    (recD exCrossFin 0).embedded = true :=
  ⟨by decide, by decide, by decide, by decide, by decide, rfl, by decide, by decide⟩

/-! ### The evolution relation of `collectEmbeds`

`RecStep ra rb` says record `rb` is a possible later state of record `ra`
under the mutations `collectEmbeds` performs: identity fields are fixed, the
two flags only ever go from false to true, and `importedAs` (always) and
`embeds` (once the record has been collected) only ever grow. -/

structure RecStep (ra rb : RuleRecord) : Prop where
  rule : rb.rule = ra.rule
  label : rb.label = ra.label
  file : rb.file = ra.file
  lang : rb.lang = ra.lang
  flag : ra.didCollectEmbeds = true → rb.didCollectEmbeds = true
  emb : ra.embedded = true → rb.embedded = true
  imports : ∀ x ∈ ra.importedAs, x ∈ rb.importedAs
  embeds : ra.didCollectEmbeds = true → ∀ x ∈ ra.embeds, x ∈ rb.embeds

/-- Index evolution: `Step a b` says `b` is a possible later state of `a` during the
closure-collection phase; everything but the record contents is untouched. -/
structure Step (a b : RuleIndex) : Prop where
  len : b.rules.length = a.rules.length
  lmap : b.labelMap = a.labelMap
  mr : b.mrslv = a.mrslv
  cross : b.crossResolvers = a.crossResolvers
  fin : b.didFinish = a.didFinish
  imap : b.importMap = a.importMap
  recs : ∀ k ra, nth a.rules k = some ra → ∃ rb, nth b.rules k = some rb ∧ RecStep ra rb

theorem recStep_refl (r : RuleRecord) : RecStep r r :=
  ⟨rfl, rfl, rfl, rfl, id, id, fun _ h => h, fun _ _ h => h⟩

theorem recStep_trans {ra rm rb : RuleRecord} (h1 : RecStep ra rm) (h2 : RecStep rm rb) :
    RecStep ra rb := by
  refine ⟨h2.rule.trans h1.rule, h2.label.trans h1.label, h2.file.trans h1.file,
    h2.lang.trans h1.lang, fun h => h2.flag (h1.flag h), fun h => h2.emb (h1.emb h),
    fun x hx => h2.imports x (h1.imports x hx), fun h x hx => ?_⟩
  exact h2.embeds (h1.flag h) x (h1.embeds h x hx)

theorem Step.refl (a : RuleIndex) : Step a a :=
  ⟨rfl, rfl, rfl, rfl, rfl, rfl, fun _ ra h => ⟨ra, h, recStep_refl ra⟩⟩

theorem Step.trans {a m b : RuleIndex} (h1 : Step a m) (h2 : Step m b) : Step a b := by
  refine ⟨h2.len.trans h1.len, h2.lmap.trans h1.lmap, h2.mr.trans h1.mr,
    h2.cross.trans h1.cross, h2.fin.trans h1.fin, h2.imap.trans h1.imap, ?_⟩
  intro k ra h
  obtain ⟨rm, hm, s1⟩ := h1.recs k ra h
  obtain ⟨rb, hb, s2⟩ := h2.recs k rm hm
  exact ⟨rb, hb, recStep_trans s1 s2⟩

/-- Looking backwards along a step: every record of `b` came from one of `a`. -/
theorem Step.back {a b : RuleIndex} (h : Step a b) (k : Nat) (rb : RuleRecord)
    (hk : nth b.rules k = some rb) : ∃ ra, nth a.rules k = some ra ∧ RecStep ra rb := by
  have hlt : k < a.rules.length := by
    have h1 := lt_of_nth_some _ _ _ hk
    have h2 := h.len
    omega
  obtain ⟨ra, hra⟩ := nth_isSome_of_lt a.rules k hlt
  obtain ⟨rb', hb', s⟩ := h.recs k ra hra
  rw [hk] at hb'
  cases hb'
  exact ⟨ra, hra, s⟩

/-- A single in-place record mutation whose effect satisfies `RecStep` is a
`Step`. -/
theorem step_modifyRec (ix : RuleIndex) (i : Nat) (f : RuleRecord → RuleRecord)
    (h : ∀ rc, nth ix.rules i = some rc → RecStep rc (f rc)) :
    Step ix (modifyRec ix i f) := by
  unfold modifyRec
  cases hri : nth ix.rules i with
  | none => exact Step.refl ix
  | some ri =>
    refine ⟨?_, rfl, rfl, rfl, rfl, rfl, ?_⟩
    · simpa using length_setNth ix.rules i (f ri)
    · intro k ra hk
      by_cases hik : i = k
      · subst hik
        rw [hri] at hk
        cases hk
        refine ⟨f ri, ?_, h ri hri⟩
        simpa using nth_setNth_self ix.rules i (f ri) (lt_of_nth_some _ _ _ hri)
      · refine ⟨ra, ?_, recStep_refl ra⟩
        simpa using (nth_setNth_ne ix.rules i k (f ri) hik).symm ▸ hk

/-- The state change of one same-language loop iteration is a `Step`. -/
theorem step_loop_same (s : RuleIndex) (i erIdx : Nat) (er : RuleRecord) :
    Step s (modifyRec (modifyRec (modifyRec s erIdx
      (fun rc => { rc with embedded := true })) i
      (fun rc => { rc with embeds := rc.embeds ++ er.embeds })) i
      (fun rc => { rc with importedAs := rc.importedAs ++ er.importedAs })) := by
  have h1 : Step s (modifyRec s erIdx (fun rc => { rc with embedded := true })) :=
    step_modifyRec _ _ _ (fun rc _ =>
      ⟨rfl, rfl, rfl, rfl, id, fun _ => rfl, fun _ h => h, fun _ _ h => h⟩)
  have h2 : Step (modifyRec s erIdx (fun rc => { rc with embedded := true }))
      (modifyRec (modifyRec s erIdx (fun rc => { rc with embedded := true })) i
        (fun rc => { rc with embeds := rc.embeds ++ er.embeds })) :=
    step_modifyRec _ _ _ (fun rc _ =>
      ⟨rfl, rfl, rfl, rfl, id, id, fun _ h => h,
       fun _ x hx => List.mem_append_left _ hx⟩)
  have h3 : Step (modifyRec (modifyRec s erIdx
      (fun rc => { rc with embedded := true })) i
      (fun rc => { rc with embeds := rc.embeds ++ er.embeds }))
      (modifyRec (modifyRec (modifyRec s erIdx
        (fun rc => { rc with embedded := true })) i
        (fun rc => { rc with embeds := rc.embeds ++ er.embeds })) i
        (fun rc => { rc with importedAs := rc.importedAs ++ er.importedAs })) :=
    step_modifyRec _ _ _ (fun rc _ =>
      ⟨rfl, rfl, rfl, rfl, id, id,
       fun x hx => List.mem_append_left _ hx, fun _ x hx => hx⟩)
  exact (h1.trans h2).trans h3

/-- The state change of one cross-language loop iteration is a `Step`. -/
theorem step_loop_diff (s : RuleIndex) (i : Nat) (er : RuleRecord) :
    Step s (modifyRec s i
      (fun rc => { rc with importedAs := rc.importedAs ++ er.importedAs })) :=
  step_modifyRec _ _ _ (fun _ _ =>
    ⟨rfl, rfl, rfl, rfl, id, id,
     fun _ hx => List.mem_append_left _ hx, fun _ _ hx => hx⟩)

/-- The fact that `collectEmbeds` sets its target record's flag. -/
def FlagSet (ix : RuleIndex) (i : Nat) (b : RuleIndex) : Prop :=
  ∀ ri, nth ix.rules i = some ri →
    ∃ ri', nth b.rules i = some ri' ∧ ri'.didCollectEmbeds = true

/-- The specification assumed of the recursive call handed to `collectLoop`. -/
def CeSpec (ce : RuleIndex → Nat → Except CEErr RuleIndex) : Prop :=
  ∀ ix i ix', ce ix i = .ok ix' → Step ix ix' ∧ FlagSet ix i ix'

theorem collectLoop_step (ce : RuleIndex → Nat → Except CEErr RuleIndex)
    (hce : CeSpec ce) :
    ∀ (es : List Label) (ix : RuleIndex) (i : Nat) (rslv : Resolver)
      (ix' : RuleIndex), collectLoop ce ix i rslv es = .ok ix' → Step ix ix' := by
  intro es
  induction es with
  | nil =>
    intro ix i rslv ix' h
    simp only [collectLoop] at h
    cases h
    exact Step.refl ix
  | cons e rest ih =>
    intro ix i rslv ix' h
    simp only [collectLoop] at h
    cases hri : nth ix.rules i with
    | none =>
      rw [hri] at h
      cases h
      exact Step.refl ix
    | some ri =>
      rw [hri] at h
      dsimp only at h
      cases hfind : findRuleByLabel ix e ri.label with
      | none =>
        rw [hfind] at h
        exact ih ix i rslv ix' h
      | some erIdx =>
        rw [hfind] at h
        dsimp only at h
        cases hce' : ce ix erIdx with
        | error err => rw [hce'] at h; cases h
        | ok s =>
          rw [hce'] at h
          dsimp only at h
          have hs : Step ix s := (hce ix erIdx s hce').1
          cases her : nth s.rules erIdx with
          | none => rw [her] at h; cases h
          | some er =>
            rw [her] at h
            dsimp only at h
            cases herR : s.mrslv er.rule er.file.pkg with
            | none => rw [herR] at h; cases h
            | some erResolver =>
              rw [herR] at h
              dsimp only at h
              by_cases hname : rslv.name = erResolver.name
              · rw [if_pos hname] at h
                have h4 := ih _ i rslv ix' h
                exact hs.trans ((step_loop_same s i erIdx er).trans h4)
              · rw [if_neg hname] at h
                have h4 := ih _ i rslv ix' h
                exact hs.trans ((step_loop_diff s i er).trans h4)

theorem collectEmbedsF_step :
    ∀ (fuel : Nat), CeSpec (collectEmbedsF fuel) := by
  intro fuel
  induction fuel with
  | zero =>
    intro ix i ix' h
    simp [collectEmbedsF] at h
  | succ n ih =>
    intro ix i ix' h
    simp only [collectEmbedsF] at h
    cases hri : nth ix.rules i with
    | none =>
      rw [hri] at h
      cases h
      exact ⟨Step.refl ix, fun ri hri' => by rw [hri] at hri'; cases hri'⟩
    | some r =>
      rw [hri] at h
      dsimp only at h
      by_cases hflag : r.didCollectEmbeds
      · rw [if_pos hflag] at h
        cases h
        exact ⟨Step.refl ix, fun ri hri' => by
          rw [hri] at hri'; cases hri'; exact ⟨r, hri, hflag⟩⟩
      · rw [if_neg hflag] at h
        cases hmr : ix.mrslv r.rule r.file.pkg with
        | none => rw [hmr] at h; cases h
        | some resolver =>
          rw [hmr] at h
          dsimp only at h
          have hstep2 : Step ix (modifyRec ix i (fun rc =>
              { rc with didCollectEmbeds := true,
                        embeds := resolver.embeds r.rule r.label })) := by
            apply step_modifyRec
            intro rc hrc
            rw [hri] at hrc
            cases hrc
            exact ⟨rfl, rfl, rfl, rfl, fun hh => rfl, id, fun x hx => hx,
                   fun hh => absurd hh (by simpa using hflag)⟩
          have hloop := collectLoop_step (collectEmbedsF n) ih _ _ i resolver ix' h
          refine ⟨hstep2.trans hloop, ?_⟩
          intro ri hri'
          rw [hri] at hri'
          cases hri'
          have hmid : nth (modifyRec ix i (fun rc =>
              { rc with didCollectEmbeds := true,
                        embeds := resolver.embeds r.rule r.label })).rules i
              = some { r with didCollectEmbeds := true,
                              embeds := resolver.embeds r.rule r.label } := by
            unfold modifyRec
            rw [hri]
            simpa using nth_setNth_self ix.rules i _ (lt_of_nth_some _ _ _ hri)
          obtain ⟨rb, hrb, s⟩ := hloop.recs i _ hmid
          exact ⟨rb, hrb, s.flag rfl⟩

/-! ### Termination of the closure recursion (C7)

Go's `collectEmbeds` recursion terminates because each record's
`didCollectEmbeds` flag is set before recursing into its children, so the
recursion depth is bounded by the number of still-uncollected records.  We
count those records and show the fuel `rules.length + 1` used by `Finish`
cannot run out. -/

/-- The number of records whose closure has not been collected yet. -/
def uncollected : List RuleRecord → Nat
  | [] => 0
  | r :: l => (if r.didCollectEmbeds then 0 else 1) + uncollected l

theorem uncollected_le_length : ∀ (l : List RuleRecord), uncollected l ≤ l.length := by
  intro l
  induction l with
  | nil => simp [uncollected]
  | cons r l ih =>
    simp only [uncollected, List.length_cons]
    by_cases h : r.didCollectEmbeds <;> simp [h] <;> omega

theorem uncollected_pos : ∀ (l : List RuleRecord) (i : Nat) (r : RuleRecord),
    nth l i = some r → r.didCollectEmbeds = false → 1 ≤ uncollected l := by
  intro l
  induction l with
  | nil => intro i r h; simp at h
  | cons a t ih =>
    intro i r h hf
    cases i with
    | zero =>
      simp only [nth_cons_zero, Option.some.injEq] at h
      subst h
      simp [uncollected, hf]
    | succ n =>
      have := ih n r (by simpa using h) hf
      simp only [uncollected]
      omega

theorem uncollected_setNth_flip : ∀ (l : List RuleRecord) (i : Nat) (r r' : RuleRecord),
    nth l i = some r → r.didCollectEmbeds = false → r'.didCollectEmbeds = true →
    uncollected (setNth l i r') + 1 = uncollected l := by
  intro l
  induction l with
  | nil => intro i r r' h; simp at h
  | cons a t ih =>
    intro i r r' h hf ht
    cases i with
    | zero =>
      simp only [nth_cons_zero, Option.some.injEq] at h
      subst h
      simp [setNth, uncollected, hf, ht]
      omega
    | succ n =>
      have := ih n r r' (by simpa using h) hf ht
      simp only [setNth, uncollected]
      omega

theorem uncollected_pointwise : ∀ (l1 l2 : List RuleRecord), l1.length = l2.length →
    (∀ k r1, nth l1 k = some r1 →
      ∃ r2, nth l2 k = some r2 ∧ (r1.didCollectEmbeds = true → r2.didCollectEmbeds = true)) →
    uncollected l2 ≤ uncollected l1 := by
  intro l1
  induction l1 with
  | nil =>
    intro l2 hlen _
    cases l2 with
    | nil => simp
    | cons r2 t2 => simp at hlen
  | cons r1 t1 ih =>
    intro l2 hlen h
    cases l2 with
    | nil => simp at hlen
    | cons r2 t2 =>
      obtain ⟨r2', h0, himp⟩ := h 0 r1 rfl
      simp only [nth_cons_zero, Option.some.injEq] at h0
      subst h0
      have htail : uncollected t2 ≤ uncollected t1 := by
        apply ih t2 (by simpa using hlen)
        intro k rk hk
        obtain ⟨r2'', hk2, himp2⟩ := h (k + 1) rk (by simpa using hk)
        exact ⟨r2'', by simpa using hk2, himp2⟩
      have hhead : (if r2.didCollectEmbeds then 0 else 1)
          ≤ (if r1.didCollectEmbeds then (0 : Nat) else 1) := by
        by_cases h1 : r1.didCollectEmbeds
        · simp [h1, himp h1]
        · by_cases h2 : r2.didCollectEmbeds <;> simp [h1, h2]
      simp only [uncollected]
      omega

theorem uncollected_le_of_step {a b : RuleIndex} (h : Step a b) :
    uncollected b.rules ≤ uncollected a.rules := by
  apply uncollected_pointwise a.rules b.rules h.len.symm
  intro k r1 hk
  obtain ⟨r2, hk2, s⟩ := h.recs k r1 hk
  exact ⟨r2, hk2, s.flag⟩

/-- The loop never reports `outOfFuel` when the recursive call it was handed
cannot (for states with fewer than `n` uncollected records). -/
theorem collectLoop_noFuel (n : Nat) (ce : RuleIndex → Nat → Except CEErr RuleIndex)
    (hstep : CeSpec ce)
    (hnf : ∀ ix i, uncollected ix.rules < n → ce ix i ≠ .error .outOfFuel) :
    ∀ (es : List Label) (ix : RuleIndex) (i : Nat) (rslv : Resolver),
      uncollected ix.rules < n →
      collectLoop ce ix i rslv es ≠ .error .outOfFuel := by
  intro es
  induction es with
  | nil =>
    intro ix i rslv _ h
    simp [collectLoop] at h
  | cons e rest ih =>
    intro ix i rslv hcnt h
    simp only [collectLoop] at h
    cases hri : nth ix.rules i with
    | none => rw [hri] at h; cases h
    | some ri =>
      rw [hri] at h
      dsimp only at h
      cases hfind : findRuleByLabel ix e ri.label with
      | none =>
        rw [hfind] at h
        exact ih ix i rslv hcnt h
      | some erIdx =>
        rw [hfind] at h
        dsimp only at h
        cases hce' : ce ix erIdx with
        | error err =>
          rw [hce'] at h
          cases h
          exact hnf ix erIdx hcnt hce'
        | ok s =>
          rw [hce'] at h
          dsimp only at h
          have hs : Step ix s := (hstep ix erIdx s hce').1
          have hcnt2 : uncollected s.rules < n :=
            Nat.lt_of_le_of_lt (uncollected_le_of_step hs) hcnt
          cases her : nth s.rules erIdx with
          | none => rw [her] at h; cases h
          | some er =>
            rw [her] at h
            dsimp only at h
            cases herR : s.mrslv er.rule er.file.pkg with
            | none => rw [herR] at h; cases h
            | some erResolver =>
              rw [herR] at h
              dsimp only at h
              by_cases hname : rslv.name = erResolver.name
              · rw [if_pos hname] at h
                have hcnt3 := Nat.lt_of_le_of_lt
                  (uncollected_le_of_step (step_loop_same s i erIdx er)) hcnt2
                exact ih _ i rslv hcnt3 h
              · rw [if_neg hname] at h
                have hcnt3 := Nat.lt_of_le_of_lt
                  (uncollected_le_of_step (step_loop_diff s i er)) hcnt2
                exact ih _ i rslv hcnt3 h

/-- With fuel exceeding the number of uncollected records, `collectEmbeds`
never runs out of fuel: the flag is set before the recursive calls, so every
nested call sees strictly fewer uncollected records. -/
theorem collectEmbedsF_noFuel :
    ∀ (fuel : Nat) (ix : RuleIndex) (i : Nat), uncollected ix.rules < fuel →
      collectEmbedsF fuel ix i ≠ .error .outOfFuel := by
  intro fuel
  induction fuel with
  | zero => intro ix i hcnt; exact absurd hcnt (Nat.not_lt_zero _)
  | succ n ih =>
    intro ix i hcnt h
    simp only [collectEmbedsF] at h
    cases hri : nth ix.rules i with
    | none => rw [hri] at h; cases h
    | some r =>
      rw [hri] at h
      dsimp only at h
      by_cases hflag : r.didCollectEmbeds
      · rw [if_pos hflag] at h; cases h
      · rw [if_neg hflag] at h
        cases hmr : ix.mrslv r.rule r.file.pkg with
        | none => rw [hmr] at h; cases h
        | some resolver =>
          rw [hmr] at h
          dsimp only at h
          have hflip : uncollected (modifyRec ix i (fun rc =>
              { rc with didCollectEmbeds := true,
                        embeds := resolver.embeds r.rule r.label })).rules + 1
              = uncollected ix.rules := by
            unfold modifyRec
            rw [hri]
            exact uncollected_setNth_flip ix.rules i r _ hri
              (by simpa using hflag) rfl
          have hcnt2 : uncollected (modifyRec ix i (fun rc =>
              { rc with didCollectEmbeds := true,
                        embeds := resolver.embeds r.rule r.label })).rules < n := by
            omega
          exact collectLoop_noFuel n (collectEmbedsF n) (collectEmbedsF_step n) ih
            _ _ i resolver hcnt2 h

theorem finishLoop_noFuel (fuel : Nat) :
    ∀ (is : List Nat) (ix : RuleIndex), uncollected ix.rules < fuel →
      finishLoop fuel ix is ≠ .error .outOfFuel := by
  intro is
  induction is with
  | nil => intro ix _ h; simp [finishLoop] at h
  | cons i rest ih =>
    intro ix hcnt h
    simp only [finishLoop] at h
    cases hce : collectEmbedsF fuel ix i with
    | error e =>
      rw [hce] at h
      cases h
      exact collectEmbedsF_noFuel fuel ix i hcnt hce
    | ok m =>
      rw [hce] at h
      have hs := (collectEmbedsF_step fuel ix i m hce).1
      exact ih m (Nat.lt_of_le_of_lt (uncollected_le_of_step hs) hcnt) h

/-! ### C7 -/

/-- C7: Finish terminates on every index, embed cycles included: the fuel
`rules.length + 1` standing for Go's recursion depth is never exhausted,
because `collectEmbeds` sets each record's closure-computed flag before
recursing into its embed children, so the recursion depth is bounded by the
number of uncollected records. -/
theorem claimC7_theorem : ∀ (ix : RuleIndex), ix.Finish ≠ .error .outOfFuel := by
  intro ix h
  unfold RuleIndex.Finish at h
  cases hFL : finishLoop (ix.rules.length + 1) ix (List.range ix.rules.length) with
  | error e =>
    rw [hFL] at h
    cases h
    exact finishLoop_noFuel (ix.rules.length + 1) (List.range ix.rules.length) ix
      (Nat.lt_succ_of_le (uncollected_le_length ix.rules)) hFL
  | ok m => rw [hFL] at h; cases h

/-! ### Preservation of well-formedness along steps -/

theorem enumMap_label_eq : ∀ (l1 l2 : List RuleRecord) (n : Nat), l1.length = l2.length →
    (∀ k r1, nth l1 k = some r1 → ∃ r2, nth l2 k = some r2 ∧ r2.label = r1.label) →
    (enumFrom n l2).map (fun p => (p.2.label, p.1))
      = (enumFrom n l1).map (fun p => (p.2.label, p.1)) := by
  intro l1
  induction l1 with
  | nil =>
    intro l2 n hlen _
    cases l2 with
    | nil => rfl
    | cons r2 t2 => simp at hlen
  | cons r1 t1 ih =>
    intro l2 n hlen h
    cases l2 with
    | nil => simp at hlen
    | cons r2 t2 =>
      obtain ⟨r2', h0, hlab⟩ := h 0 r1 rfl
      simp only [nth_cons_zero, Option.some.injEq] at h0
      subst h0
      simp only [enumFrom, List.map_cons, hlab]
      congr 1
      apply ih t2 (n + 1) (by simpa using hlen)
      intro k rk hk
      obtain ⟨r2'', hk2, hl2⟩ := h (k + 1) rk (by simpa using hk)
      exact ⟨r2'', by simpa using hk2, hl2⟩

theorem labels_map_eq : ∀ (l1 l2 : List RuleRecord), l1.length = l2.length →
    (∀ k r1, nth l1 k = some r1 → ∃ r2, nth l2 k = some r2 ∧ r2.label = r1.label) →
    l2.map (fun rc => rc.label) = l1.map (fun rc => rc.label) := by
  intro l1
  induction l1 with
  | nil =>
    intro l2 hlen _
    cases l2 with
    | nil => rfl
    | cons r2 t2 => simp at hlen
  | cons r1 t1 ih =>
    intro l2 hlen h
    cases l2 with
    | nil => simp at hlen
    | cons r2 t2 =>
      obtain ⟨r2', h0, hlab⟩ := h 0 r1 rfl
      simp only [nth_cons_zero, Option.some.injEq] at h0
      subst h0
      simp only [List.map_cons, hlab]
      congr 1
      apply ih t2 (by simpa using hlen)
      intro k rk hk
      obtain ⟨r2'', hk2, hl2⟩ := h (k + 1) rk (by simpa using hk)
      exact ⟨r2'', by simpa using hk2, hl2⟩

/-- Invariance of `Wf` under the record mutations performed by the finish
phase: identity fields, the label map and the provider function are fixed. -/
theorem wf_step {a b : RuleIndex} (ha : Wf a) (h : Step a b) : Wf b := by
  have hpt : ∀ k r1, nth a.rules k = some r1 →
      ∃ r2, nth b.rules k = some r2 ∧ r2.label = r1.label := by
    intro k r1 hk
    obtain ⟨r2, hk2, s⟩ := h.recs k r1 hk
    exact ⟨r2, hk2, s.label⟩
  refine ⟨?_, ?_, ?_, ?_⟩
  · unfold labelMapEq
    rw [h.lmap, ha.lmap]
    exact (enumMap_label_eq a.rules b.rules 0 h.len.symm hpt).symm
  · unfold labelsNodup
    rw [labels_map_eq a.rules b.rules h.len.symm hpt]
    exact ha.nodup
  · intro k rc hk
    obtain ⟨ra, hka, s⟩ := h.back k rc hk
    obtain ⟨rslv, hr, hn⟩ := ha.provider k ra hka
    refine ⟨rslv, ?_, ?_⟩
    · rw [h.mr, s.rule, s.file, hr]
    · rw [hn, s.lang]
  · intro k rc hk
    obtain ⟨ra, hka, s⟩ := h.back k rc hk
    rw [s.label]
    exact ha.abs k ra hka

/-! ### Lookups under `Wf` -/

theorem lookup_enumMap : ∀ (rs : List RuleRecord) (n : Nat) (l : Label) (j : Nat),
    lookupLabel ((enumFrom n rs).map (fun p => (p.2.label, p.1))) l = some j →
    ∃ k rc, j = n + k ∧ nth rs k = some rc ∧ rc.label = l := by
  intro rs
  induction rs with
  | nil => intro n l j h; simp [enumFrom, lookupLabel] at h
  | cons r t ih =>
    intro n l j h
    simp only [enumFrom, List.map_cons, lookupLabel] at h
    by_cases hl : r.label = l
    · rw [if_pos hl] at h
      simp only [Option.some.injEq] at h
      exact ⟨0, r, by omega, rfl, hl⟩
    · rw [if_neg hl] at h
      obtain ⟨k, rc, hj, hk, hlab⟩ := ih (n + 1) l j h
      exact ⟨k + 1, rc, by omega, by simpa using hk, hlab⟩

theorem lookup_enumMap_complete : ∀ (rs : List RuleRecord) (n k : Nat) (rc : RuleRecord),
    nth rs k = some rc → (rs.map (fun r => r.label)).Nodup →
    lookupLabel ((enumFrom n rs).map (fun p => (p.2.label, p.1))) rc.label
      = some (n + k) := by
  intro rs
  induction rs with
  | nil => intro n k rc h; simp at h
  | cons r t ih =>
    intro n k rc hk hnd
    simp only [List.map_cons, List.nodup_cons] at hnd
    simp only [enumFrom, List.map_cons, lookupLabel]
    cases k with
    | zero =>
      simp only [nth_cons_zero, Option.some.injEq] at hk
      subst hk
      rw [if_pos rfl]
      simp
    | succ m =>
      have hmem : rc.label ∈ t.map (fun r => r.label) :=
        List.mem_map.mpr ⟨rc, mem_of_nth_some _ _ _ (by simpa using hk), rfl⟩
      rw [if_neg (by intro hc; exact hnd.1 (by rw [hc]; exact hmem))]
      have := ih (n + 1) m rc (by simpa using hk) hnd.2
      rw [this]
      congr 1
      omega

theorem wf_lookup_some {ix : RuleIndex} (hw : Wf ix) (l : Label) (j : Nat)
    (h : lookupLabel ix.labelMap l = some j) :
    ∃ rc, nth ix.rules j = some rc ∧ rc.label = l := by
  rw [hw.lmap] at h
  obtain ⟨k, rc, hj, hk, hlab⟩ := lookup_enumMap ix.rules 0 l j h
  have : k = j := by omega
  subst this
  exact ⟨rc, hk, hlab⟩

theorem wf_lookup_complete {ix : RuleIndex} (hw : Wf ix) (k : Nat) (rc : RuleRecord)
    (h : nth ix.rules k = some rc) :
    lookupLabel ix.labelMap rc.label = some k := by
  rw [hw.lmap]
  have := lookup_enumMap_complete ix.rules 0 k rc h hw.nodup
  simpa using this

/-! ### `collectEmbeds` cannot fail on a well-formed index (C10) -/

theorem collectLoop_ok (n : Nat) (ce : RuleIndex → Nat → Except CEErr RuleIndex)
    (hstep : CeSpec ce)
    (hok : ∀ ix i, Wf ix → uncollected ix.rules < n → ∃ s, ce ix i = .ok s) :
    ∀ (es : List Label) (ix : RuleIndex) (i : Nat) (rslv : Resolver),
      Wf ix → uncollected ix.rules < n →
      ∃ ix', collectLoop ce ix i rslv es = .ok ix' := by
  intro es
  induction es with
  | nil =>
    intro ix i rslv _ _
    exact ⟨ix, by simp [collectLoop]⟩
  | cons e rest ih =>
    intro ix i rslv hw hcnt
    cases hri : nth ix.rules i with
    | none =>
      refine ⟨ix, ?_⟩
      simp only [collectLoop]
      rw [hri]
    | some ri =>
      cases hfind : findRuleByLabel ix e ri.label with
      | none =>
        obtain ⟨ix', hrest⟩ := ih ix i rslv hw hcnt
        refine ⟨ix', ?_⟩
        simp only [collectLoop]
        rw [hri]
        dsimp only
        rw [hfind]
        exact hrest
      | some erIdx =>
        obtain ⟨s, hce'⟩ := hok ix erIdx hw hcnt
        have hs := (hstep ix erIdx s hce').1
        have hw2 : Wf s := wf_step hw hs
        have hcnt2 : uncollected s.rules < n :=
          Nat.lt_of_le_of_lt (uncollected_le_of_step hs) hcnt
        have hfind' : lookupLabel ix.labelMap (e.abs ri.label.repo ri.label.pkg)
            = some erIdx := hfind
        obtain ⟨rc0, hrc0, _⟩ := wf_lookup_some hw _ _ hfind'
        obtain ⟨er, her, _⟩ := hs.recs erIdx rc0 hrc0
        obtain ⟨erResolver, herR, _⟩ := hw2.provider erIdx er her
        by_cases hname : rslv.name = erResolver.name
        · have hw3 : Wf _ := wf_step hw2 (step_loop_same s i erIdx er)
          have hcnt3 := Nat.lt_of_le_of_lt
            (uncollected_le_of_step (step_loop_same s i erIdx er)) hcnt2
          obtain ⟨ix', hrest⟩ := ih _ i rslv hw3 hcnt3
          refine ⟨ix', ?_⟩
          simp only [collectLoop]
          rw [hri]
          dsimp only
          rw [hfind]
          dsimp only
          rw [hce']
          dsimp only
          rw [her]
          dsimp only
          rw [herR]
          dsimp only
          rw [if_pos hname]
          exact hrest
        · have hw3 : Wf _ := wf_step hw2 (step_loop_diff s i er)
          have hcnt3 := Nat.lt_of_le_of_lt
            (uncollected_le_of_step (step_loop_diff s i er)) hcnt2
          obtain ⟨ix', hrest⟩ := ih _ i rslv hw3 hcnt3
          refine ⟨ix', ?_⟩
          simp only [collectLoop]
          rw [hri]
          dsimp only
          rw [hfind]
          dsimp only
          rw [hce']
          dsimp only
          rw [her]
          dsimp only
          rw [herR]
          dsimp only
          rw [if_neg hname]
          exact hrest

theorem collectEmbedsF_ok : ∀ (fuel : Nat) (ix : RuleIndex) (i : Nat),
    Wf ix → uncollected ix.rules < fuel →
    ∃ ix', collectEmbedsF fuel ix i = .ok ix' := by
  intro fuel
  induction fuel with
  | zero => intro ix i _ hcnt; exact absurd hcnt (Nat.not_lt_zero _)
  | succ n ih =>
    intro ix i hw hcnt
    cases hri : nth ix.rules i with
    | none =>
      refine ⟨ix, ?_⟩
      simp only [collectEmbedsF]
      rw [hri]
    | some r =>
      by_cases hflag : r.didCollectEmbeds
      · refine ⟨ix, ?_⟩
        simp only [collectEmbedsF]
        rw [hri]
        dsimp only
        rw [if_pos hflag]
      · obtain ⟨resolver, hmr, _⟩ := hw.provider i r hri
        have hstep2 : Step ix (modifyRec ix i (fun rc =>
            { rc with didCollectEmbeds := true,
                      embeds := resolver.embeds r.rule r.label })) := by
          apply step_modifyRec
          intro rc hrc
          rw [hri] at hrc
          cases hrc
          exact ⟨rfl, rfl, rfl, rfl, fun _ => rfl, id, fun x hx => hx,
                 fun hh => absurd hh (by simpa using hflag)⟩
        have hw2 := wf_step hw hstep2
        have hflip : uncollected (modifyRec ix i (fun rc =>
            { rc with didCollectEmbeds := true,
                      embeds := resolver.embeds r.rule r.label })).rules + 1
            = uncollected ix.rules := by
          unfold modifyRec
          rw [hri]
          exact uncollected_setNth_flip ix.rules i r _ hri (by simpa using hflag) rfl
        have hcnt2 : uncollected (modifyRec ix i (fun rc =>
            { rc with didCollectEmbeds := true,
                      embeds := resolver.embeds r.rule r.label })).rules < n := by
          omega
        obtain ⟨ix', hloop⟩ := collectLoop_ok n (collectEmbedsF n)
          (collectEmbedsF_step n) ih (resolver.embeds r.rule r.label) _ i resolver
          hw2 hcnt2
        refine ⟨ix', ?_⟩
        simp only [collectEmbedsF]
        rw [hri]
        dsimp only
        rw [if_neg hflag, hmr]
        exact hloop

theorem finishLoop_ok (fuel : Nat) :
    ∀ (is : List Nat) (ix : RuleIndex), Wf ix → uncollected ix.rules < fuel →
      ∃ m, finishLoop fuel ix is = .ok m := by
  intro is
  induction is with
  | nil => intro ix _ _; exact ⟨ix, rfl⟩
  | cons i rest ih =>
    intro ix hw hcnt
    obtain ⟨m, hce⟩ := collectEmbedsF_ok fuel ix i hw hcnt
    have hs := (collectEmbedsF_step fuel ix i m hce).1
    obtain ⟨m', hrest⟩ := ih m (wf_step hw hs)
      (Nat.lt_of_le_of_lt (uncollected_le_of_step hs) hcnt)
    refine ⟨m', ?_⟩
    simp only [finishLoop]
    rw [hce]
    exact hrest

theorem Finish_ok (ix : RuleIndex) (hw : Wf ix) : ∃ ixF, ix.Finish = .ok ixF := by
  obtain ⟨m, hFL⟩ := finishLoop_ok (ix.rules.length + 1) (List.range ix.rules.length)
    ix hw (Nat.lt_succ_of_le (uncollected_le_length ix.rules))
  refine ⟨{ buildImportIndex m with didFinish := true }, ?_⟩
  unfold RuleIndex.Finish
  rw [hFL]

/-! ### `Wf` holds for every index the registration API can build -/

theorem addRuleLangImps_some (ix : RuleIndex) (c : Config) (r : Rule) (f : File)
    (lang : String) (imps : List ImportSpec)
    (h : addRuleLangImps ix c r f = (lang, some imps)) :
    ∃ rslv, ix.mrslv r f.pkg = some rslv ∧ rslv.name = lang ∧
      passesLanguageFilter c.langs rslv.name = true ∧
      rslv.imports c r f = some imps := by
  unfold addRuleLangImps at h
  cases hm : ix.mrslv r f.pkg with
  | none =>
    rw [hm] at h
    dsimp only at h
    rw [Prod.mk.injEq] at h
    exact absurd h.2 (by simp)
  | some rslv =>
    rw [hm] at h
    dsimp only at h
    by_cases hfmt : passesLanguageFilter c.langs rslv.name
    · rw [if_pos hfmt] at h
      rw [Prod.mk.injEq] at h
      exact ⟨rslv, rfl, h.1, hfmt, h.2⟩
    · rw [if_neg hfmt] at h
      rw [Prod.mk.injEq] at h
      exact absurd h.2 (by simp)

theorem nth_append_single_cases {α : Type} (l : List α) (a : α) (k : Nat) (x : α)
    (h : nth (l ++ [a]) k = some x) :
    nth l k = some x ∨ (k = l.length ∧ x = a) := by
  by_cases hk : k < l.length
  · left
    rw [← nth_append_left l [a] k hk]
    exact h
  · right
    have hlen := lt_of_nth_some _ _ _ h
    simp only [List.length_append, List.length_singleton] at hlen
    have hk' : k = l.length := by omega
    subst hk'
    have hr : nth (l ++ [a]) (l.length + 0) = nth [a] 0 := nth_append_right l [a] 0
    simp only [Nat.add_zero, nth_cons_zero] at hr
    rw [hr] at h
    simp only [Option.some.injEq] at h
    exact ⟨rfl, h.symm⟩

theorem wf_new (m : Rule → String → Option Resolver) (crs : List CrossResolver) :
    Wf (NewRuleIndex m crs) := by
  refine ⟨rfl, by simp [labelsNodup, NewRuleIndex], ?_, ?_⟩
  · intro k rc hk; simp [NewRuleIndex] at hk
  · intro k rc hk; simp [NewRuleIndex] at hk

theorem wf_addRule (ix : RuleIndex) (c : Config) (r : Rule) (f : File)
    (ix' : RuleIndex) (hw : Wf ix) (h : ix.AddRule c r f = some ix') : Wf ix' := by
  rcases AddRule_some_cases ix c r f ix' h with heq | ⟨lang, imps, hE, hL, heq⟩
  · rw [heq]; exact hw
  · subst heq
    obtain ⟨rslv, hm, hname, _, _⟩ := addRuleLangImps_some ix c r f lang imps hE
    refine ⟨?_, ?_, ?_, ?_⟩
    · unfold labelMapEq
      simp only [enumFrom_append_single, List.map_append, List.map_cons, List.map_nil,
        Nat.zero_add]
      rw [hw.lmap]
    · unfold labelsNodup
      simp only [List.map_append, List.map_cons, List.map_nil]
      rw [nodup_append_single]
      refine ⟨hw.nodup, ?_⟩
      intro hmem
      obtain ⟨rc, hrc, hlab⟩ := List.mem_map.mp hmem
      exact label_not_recorded_of_lookup_none ix hw.lmap _ hL rc hrc hlab
    · intro k rc hk
      rcases nth_append_single_cases _ _ _ _ hk with hk' | ⟨_, hrc⟩
      · exact hw.provider k rc hk'
      · subst hrc
        exact ⟨rslv, hm, by rw [hname]; rfl⟩
    · intro k rc hk
      rcases nth_append_single_cases _ _ _ _ hk with hk' | ⟨_, hrc⟩
      · exact hw.abs k rc hk'
      · subst hrc; rfl

/-! ### C10 -/

/-- C10: the registration API maintains the invariant that every record's
provider lookup succeeds (`Wf`, whose `provider` field records exactly that),
and on any such index `Finish` — whose `collectEmbeds` dereferences the
provider of the collected record and of every resolved embedded record
without a nil check — completes without the modelled nil-interface panic
(`CEErr.nilResolver`) or fuel exhaustion: it returns `.ok`. -/
theorem claimC10_theorem :
    (∀ (m : Rule → String → Option Resolver) (crs : List CrossResolver),
        Wf (NewRuleIndex m crs)) ∧
    (∀ (ix : RuleIndex) (c : Config) (r : Rule) (f : File) (ix' : RuleIndex),
        Wf ix → ix.AddRule c r f = some ix' → Wf ix') ∧
    (∀ (ix : RuleIndex), Wf ix → ∃ ixF, ix.Finish = .ok ixF) :=
  ⟨wf_new, wf_addRule, Finish_ok⟩

/-- Witness for C10: the concrete chain index is well-formed and finishes. -/
theorem claimC10_witness : ∃ ixF, exChainIx.Finish = .ok ixF :=
  claimC10_theorem.2.2 exChainIx (wf_of_check exChainIx (by decide))

/-- The finish loop only composes collectEmbeds steps. -/
theorem finishLoop_step (fuel : Nat) :
    ∀ (is : List Nat) (ix ix' : RuleIndex),
      finishLoop fuel ix is = .ok ix' → Step ix ix' := by
  intro is
  induction is with
  | nil =>
    intro ix ix' h
    simp only [finishLoop] at h
    cases h
    exact Step.refl ix
  | cons i rest ih =>
    intro ix ix' h
    simp only [finishLoop] at h
    cases hce : collectEmbedsF fuel ix i with
    | error e => rw [hce] at h; cases h
    | ok m =>
      rw [hce] at h
      exact ((collectEmbedsF_step fuel ix i m hce).1).trans (ih m ix' h)

/-! ### What the closure phase establishes (for C2 and C4)

`σ` always denotes the pre-Finish index; all predicates are stated so that
they are preserved as the state keeps evolving. -/

/-- On absolute labels, `Label.abs` is the identity. -/
theorem Label.abs_absolute (l : Label) (h : l.relative = false) (repo pkg : String) :
    l.abs repo pkg = l := by
  unfold Label.abs
  rw [h]
  simp

/-- The one embed edge `e` of record `i` has been processed: the resolved
target is collected, it is marked embedded when the languages match, and its
original imports have been inherited by `i`. -/
def EdgeDone (σ ix : RuleIndex) (i : Nat) (e : Label) : Prop :=
  ∀ ri, nth ix.rules i = some ri →
  ∀ j, lookupLabel ix.labelMap (e.abs ri.label.repo ri.label.pkg) = some j →
  ∀ rj, nth ix.rules j = some rj →
    rj.didCollectEmbeds = true ∧
    (∀ rslvi rslvj, ix.mrslv ri.rule ri.file.pkg = some rslvi →
      ix.mrslv rj.rule rj.file.pkg = some rslvj →
      rslvi.name = rslvj.name → rj.embedded = true) ∧
    (∀ rjσ, nth σ.rules j = some rjσ → ∀ x ∈ rjσ.importedAs, x ∈ ri.importedAs)

/-- Record `k`'s own `collectEmbeds` body has run to completion. -/
def Done (σ ix : RuleIndex) (k : Nat) : Prop :=
  ∀ rk, nth ix.rules k = some rk →
  ∀ rslv, ix.mrslv rk.rule rk.file.pkg = some rslv →
    (∀ e ∈ rslv.embeds rk.rule rk.label, e ∈ rk.embeds) ∧
    (∀ e ∈ rslv.embeds rk.rule rk.label, EdgeDone σ ix k e)

/-- Every collected record outside the in-progress set `S` is done. -/
def DoneAllX (σ ix : RuleIndex) (S : List Nat) : Prop :=
  ∀ k, k ∉ S → ∀ rk, nth ix.rules k = some rk → rk.didCollectEmbeds = true →
    Done σ ix k

theorem EdgeDone_mono {σ a b : RuleIndex} (hstep : Step a b) (i : Nat) (e : Label)
    (h : EdgeDone σ a i e) : EdgeDone σ b i e := by
  intro ri' hri' j hj rj' hrj'
  obtain ⟨ri, hri, si⟩ := hstep.back i ri' hri'
  rw [hstep.lmap, si.label] at hj
  obtain ⟨rj, hrj, sj⟩ := hstep.back j rj' hrj'
  obtain ⟨hflag, hemb, himp⟩ := h ri hri j hj rj hrj
  refine ⟨sj.flag hflag, ?_, ?_⟩
  · intro rslvi rslvj hi hj' hn
    apply sj.emb
    apply hemb rslvi rslvj
    · rw [← si.rule, ← si.file, ← hstep.mr]; exact hi
    · rw [← sj.rule, ← sj.file, ← hstep.mr]; exact hj'
    · exact hn
  · intro rjσ hjσ x hx
    exact si.imports x (himp rjσ hjσ x hx)

theorem Done_mono {σ a b : RuleIndex} (hstep : Step a b) (k : Nat)
    (rk : RuleRecord) (hk : nth a.rules k = some rk)
    (hflag : rk.didCollectEmbeds = true) (h : Done σ a k) : Done σ b k := by
  intro rk' hk' rslv hr
  obtain ⟨rka, hka, s⟩ := hstep.back k rk' hk'
  rw [hk] at hka
  cases hka
  have hr' : a.mrslv rk.rule rk.file.pkg = some rslv := by
    rw [← s.rule, ← s.file, ← hstep.mr]; exact hr
  obtain ⟨hembs, hedges⟩ := h rk hk rslv hr'
  rw [s.rule, s.label]
  constructor
  · intro e he
    exact s.embeds hflag e (hembs e he)
  · intro e he
    exact EdgeDone_mono hstep k e (hedges e he)

/-- Reading `nth` through an in-place update. -/
theorem nth_modifyRec (s : RuleIndex) (j : Nat) (f : RuleRecord → RuleRecord)
    (k : Nat) :
    nth (modifyRec s j f).rules k
      = if j = k then (nth s.rules k).map f else nth s.rules k := by
  unfold modifyRec
  cases hns : nth s.rules j with
  | none =>
    by_cases hjk : j = k
    · subst hjk
      rw [if_pos rfl, hns]
      rfl
    · rw [if_neg hjk]
  | some r =>
    by_cases hjk : j = k
    · subst hjk
      rw [if_pos rfl, hns]
      simpa using nth_setNth_self s.rules j (f r) (lt_of_nth_some _ _ _ hns)
    · rw [if_neg hjk]
      exact nth_setNth_ne s.rules j k (f r) hjk

/-- A flag-preserving in-place update keeps `DoneAllX`. -/
theorem DoneAllX_modify (σ s : RuleIndex) (S : List Nat) (j : Nat)
    (f : RuleRecord → RuleRecord)
    (hflagpres : ∀ rc, (f rc).didCollectEmbeds = rc.didCollectEmbeds)
    (hstepf : ∀ rc, nth s.rules j = some rc → RecStep rc (f rc))
    (hD : DoneAllX σ s S) : DoneAllX σ (modifyRec s j f) S := by
  intro k hk rk' hrk' hflag'
  have hstep := step_modifyRec s j f hstepf
  rw [nth_modifyRec] at hrk'
  by_cases hjk : j = k
  · subst hjk
    cases hns : nth s.rules j with
    | none => rw [if_pos rfl, hns] at hrk'; cases hrk'
    | some rk =>
      rw [if_pos rfl, hns] at hrk'
      simp only [Option.map_some', Option.some.injEq] at hrk'
      have hflag : rk.didCollectEmbeds = true := by
        rw [← hflagpres rk, hrk']
        exact hflag'
      exact Done_mono hstep j rk hns hflag (hD j hk rk hns hflag)
  · rw [if_neg hjk] at hrk'
    exact Done_mono hstep k rk' hrk' hflag' (hD k hk rk' hrk' hflag')

/-- The record at `i` after a same-language loop iteration. -/
theorem same_branch_at_i (s : RuleIndex) (i erIdx : Nat) (er ris : RuleRecord)
    (hris : nth s.rules i = some ris) :
    ∃ rit, nth (modifyRec (modifyRec (modifyRec s erIdx
        (fun rc => { rc with embedded := true })) i
        (fun rc => { rc with embeds := rc.embeds ++ er.embeds })) i
        (fun rc => { rc with importedAs := rc.importedAs ++ er.importedAs })).rules i
      = some rit ∧
      rit.rule = ris.rule ∧ rit.label = ris.label ∧ rit.file = ris.file ∧
      rit.lang = ris.lang ∧
      rit.importedAs = ris.importedAs ++ er.importedAs ∧
      rit.embeds = ris.embeds ++ er.embeds ∧
      (¬ erIdx = i → rit.embedded = ris.embedded) := by
  rw [nth_modifyRec, if_pos rfl, nth_modifyRec, if_pos rfl, nth_modifyRec]
  by_cases he : erIdx = i
  · subst he
    rw [if_pos rfl, hris]
    exact ⟨_, rfl, rfl, rfl, rfl, rfl, rfl, rfl, fun hc => absurd rfl hc⟩
  · rw [if_neg he, hris]
    exact ⟨_, rfl, rfl, rfl, rfl, rfl, rfl, rfl, fun _ => rfl⟩

/-- The record at `erIdx` after a same-language loop iteration. -/
theorem same_branch_at_er (s : RuleIndex) (i erIdx : Nat) (er : RuleRecord)
    (her : nth s.rules erIdx = some er) :
    ∃ ret, nth (modifyRec (modifyRec (modifyRec s erIdx
        (fun rc => { rc with embedded := true })) i
        (fun rc => { rc with embeds := rc.embeds ++ er.embeds })) i
        (fun rc => { rc with importedAs := rc.importedAs ++ er.importedAs })).rules erIdx
      = some ret ∧
      ret.embedded = true ∧ ret.didCollectEmbeds = er.didCollectEmbeds ∧
      ret.rule = er.rule ∧ ret.file = er.file ∧ ret.label = er.label ∧
      (∀ x ∈ er.embeds, x ∈ ret.embeds) := by
  rw [nth_modifyRec, nth_modifyRec, nth_modifyRec, if_pos rfl, her]
  by_cases hie : i = erIdx
  · rw [if_pos hie, if_pos hie]
    exact ⟨_, rfl, rfl, rfl, rfl, rfl, rfl, fun x hx => List.mem_append_left _ hx⟩
  · rw [if_neg hie, if_neg hie]
    exact ⟨_, rfl, rfl, rfl, rfl, rfl, rfl, fun x hx => hx⟩

/-- The record at `i` after a cross-language loop iteration. -/
theorem diff_branch_at_i (s : RuleIndex) (i : Nat) (er ris : RuleRecord)
    (hris : nth s.rules i = some ris) :
    ∃ rit, nth (modifyRec s i
        (fun rc => { rc with importedAs := rc.importedAs ++ er.importedAs })).rules i
      = some rit ∧
      rit.rule = ris.rule ∧ rit.label = ris.label ∧ rit.file = ris.file ∧
      rit.lang = ris.lang ∧
      rit.importedAs = ris.importedAs ++ er.importedAs ∧
      rit.embeds = ris.embeds ∧
      rit.embedded = ris.embedded := by
  rw [nth_modifyRec, if_pos rfl, hris]
  exact ⟨_, rfl, rfl, rfl, rfl, rfl, rfl, rfl, rfl⟩

/-- The record at `erIdx` after a cross-language loop iteration. -/
theorem diff_branch_at_er (s : RuleIndex) (i erIdx : Nat) (er : RuleRecord)
    (her : nth s.rules erIdx = some er) :
    ∃ ret, nth (modifyRec s i
        (fun rc => { rc with importedAs := rc.importedAs ++ er.importedAs })).rules erIdx
      = some ret ∧
      ret.embedded = er.embedded ∧ ret.didCollectEmbeds = er.didCollectEmbeds ∧
      ret.rule = er.rule ∧ ret.file = er.file ∧ ret.label = er.label := by
  rw [nth_modifyRec, her]
  by_cases hie : i = erIdx
  · rw [if_pos hie]
    exact ⟨_, rfl, rfl, rfl, rfl, rfl, rfl⟩
  · rw [if_neg hie]
    exact ⟨_, rfl, rfl, rfl, rfl, rfl, rfl⟩

/-- Done-preservation specification of the recursive call handed to the loop. -/
def CeSpecDone (ce : RuleIndex → Nat → Except CEErr RuleIndex) : Prop :=
  ∀ (σ : RuleIndex) (S : List Nat) (ix : RuleIndex) (i : Nat) (ix' : RuleIndex),
    Wf ix → Step σ ix → DoneAllX σ ix S → ce ix i = .ok ix' → DoneAllX σ ix' S

theorem collectLoop_done (ce : RuleIndex → Nat → Except CEErr RuleIndex)
    (hce : CeSpec ce) (hdone : CeSpecDone ce) :
    ∀ (es : List Label) (σ : RuleIndex) (S : List Nat) (ix : RuleIndex) (i : Nat)
      (rslv : Resolver) (ix' : RuleIndex),
      Wf ix → Step σ ix → DoneAllX σ ix S →
      (∀ ri0, nth ix.rules i = some ri0 →
        ix.mrslv ri0.rule ri0.file.pkg = some rslv) →
      collectLoop ce ix i rslv es = .ok ix' →
      DoneAllX σ ix' S ∧ ∀ e ∈ es, EdgeDone σ ix' i e := by
  intro es
  induction es with
  | nil =>
    intro σ S ix i rslv ix' _ _ hD _ h
    simp only [collectLoop] at h
    cases h
    exact ⟨hD, fun e he => absurd he (List.not_mem_nil e)⟩
  | cons e rest ih =>
    intro σ S ix i rslv ix' hw hσ hD hrs h
    simp only [collectLoop] at h
    cases hri : nth ix.rules i with
    | none =>
      rw [hri] at h
      cases h
      refine ⟨hD, ?_⟩
      intro e' _ ri' hri'
      rw [hri] at hri'
      cases hri'
    | some ri =>
      rw [hri] at h
      dsimp only at h
      cases hfind : findRuleByLabel ix e ri.label with
      | none =>
        rw [hfind] at h
        obtain ⟨hD', hE'⟩ := ih σ S ix i rslv ix' hw hσ hD hrs h
        have hLS := collectLoop_step ce hce rest ix i rslv ix' h
        refine ⟨hD', ?_⟩
        intro e' he'
        rcases List.mem_cons.mp he' with he' | he'
        · subst he'
          intro ri' hri' j hj rj' _
          exfalso
          obtain ⟨ri0, hri0, s0⟩ := hLS.back i ri' hri'
          rw [hri] at hri0
          cases hri0
          rw [hLS.lmap, s0.label] at hj
          have hj' : findRuleByLabel ix e' ri.label = some j := hj
          rw [hfind] at hj'
          cases hj'
        · exact hE' e' he'
      | some erIdx =>
        rw [hfind] at h
        dsimp only at h
        cases hce' : ce ix erIdx with
        | error err => rw [hce'] at h; cases h
        | ok s =>
          rw [hce'] at h
          dsimp only at h
          obtain ⟨hsStep, hsFlag⟩ := hce ix erIdx s hce'
          have hwS : Wf s := wf_step hw hsStep
          have hσS : Step σ s := hσ.trans hsStep
          have hDS : DoneAllX σ s S := hdone σ S ix erIdx s hw hσ hD hce'
          cases her : nth s.rules erIdx with
          | none => rw [her] at h; cases h
          | some er =>
            rw [her] at h
            dsimp only at h
            cases herR : s.mrslv er.rule er.file.pkg with
            | none => rw [herR] at h; cases h
            | some erResolver =>
              rw [herR] at h
              dsimp only at h
              obtain ⟨ris, hris, sri⟩ := hsStep.recs i ri hri
              obtain ⟨rc0, hrc0, _⟩ := wf_lookup_some hw _ _ hfind
              obtain ⟨er1, her1, her1flag⟩ := hsFlag rc0 hrc0
              rw [her] at her1
              cases her1
              by_cases hname : rslv.name = erResolver.name
              · rw [if_pos hname] at h
                have hSt := step_loop_same s i erIdx er
                have hwT := wf_step hwS hSt
                have hσT := hσS.trans hSt
                have hDT : DoneAllX σ (modifyRec (modifyRec (modifyRec s erIdx
                    (fun rc => { rc with embedded := true })) i
                    (fun rc => { rc with embeds := rc.embeds ++ er.embeds })) i
                    (fun rc => { rc with importedAs := rc.importedAs ++ er.importedAs }))
                    S :=
                  DoneAllX_modify _ _ _ _ _ (fun _ => rfl)
                    (fun rc _ => ⟨rfl, rfl, rfl, rfl, id, id,
                      fun _ hx => List.mem_append_left _ hx, fun _ _ hx => hx⟩)
                    (DoneAllX_modify _ _ _ _ _ (fun _ => rfl)
                      (fun rc _ => ⟨rfl, rfl, rfl, rfl, id, id, fun _ hx => hx,
                        fun _ _ hx => List.mem_append_left _ hx⟩)
                      (DoneAllX_modify _ _ _ _ _ (fun _ => rfl)
                        (fun rc _ => ⟨rfl, rfl, rfl, rfl, id, fun _ => rfl,
                          fun _ hx => hx, fun _ _ hx => hx⟩)
                        hDS))
                obtain ⟨rit, hrit, ritRule, ritLabel, ritFile, _, ritImp, _, _⟩ :=
                  same_branch_at_i s i erIdx er ris hris
                have hrsT : ∀ ri0, nth (modifyRec (modifyRec (modifyRec s erIdx
                    (fun rc => { rc with embedded := true })) i
                    (fun rc => { rc with embeds := rc.embeds ++ er.embeds })) i
                    (fun rc =>
                      { rc with importedAs := rc.importedAs ++ er.importedAs })).rules i
                    = some ri0 →
                    (modifyRec (modifyRec (modifyRec s erIdx
                      (fun rc => { rc with embedded := true })) i
                      (fun rc => { rc with embeds := rc.embeds ++ er.embeds })) i
                      (fun rc =>
                        { rc with importedAs := rc.importedAs ++ er.importedAs })).mrslv
                      ri0.rule ri0.file.pkg = some rslv := by
                  intro ri0 h0
                  rw [hrit] at h0
                  cases h0
                  have : (modifyRec (modifyRec (modifyRec s erIdx
                      (fun rc => { rc with embedded := true })) i
                      (fun rc => { rc with embeds := rc.embeds ++ er.embeds })) i
                      (fun rc =>
                        { rc with importedAs := rc.importedAs ++ er.importedAs })).mrslv
                      = ix.mrslv := by
                    rw [hSt.mr, hsStep.mr]
                  rw [this, ritRule, ritFile, sri.rule, sri.file]
                  exact hrs ri hri
                obtain ⟨hD', hE'⟩ := ih σ S _ i rslv ix' hwT hσT hDT hrsT h
                have hLS := collectLoop_step ce hce rest _ i rslv ix' h
                refine ⟨hD', ?_⟩
                intro e' he'
                rcases List.mem_cons.mp he' with he' | he'
                · subst he'
                  apply EdgeDone_mono hLS
                  intro ri' hri' j hj rj' hrj'
                  rw [hrit] at hri'
                  cases hri'
                  rw [hSt.lmap, hsStep.lmap, ritLabel, sri.label] at hj
                  have hj' : findRuleByLabel ix e' ri.label = some j := hj
                  rw [hfind] at hj'
                  cases hj'
                  obtain ⟨ret, hret, retEmb, retFlag, _, _, _, _⟩ :=
                    same_branch_at_er s i erIdx er her
                  rw [hret] at hrj'
                  cases hrj'
                  refine ⟨by rw [retFlag]; exact her1flag,
                          fun _ _ _ _ _ => retEmb, ?_⟩
                  intro rjσ hjσ x hx
                  obtain ⟨er2, her2, s2⟩ := hσS.recs erIdx rjσ hjσ
                  rw [her] at her2
                  cases her2
                  rw [ritImp]
                  exact List.mem_append_right _ (s2.imports x hx)
                · exact hE' e' he'
              · rw [if_neg hname] at h
                have hSt := step_loop_diff s i er
                have hwT := wf_step hwS hSt
                have hσT := hσS.trans hSt
                have hDT : DoneAllX σ (modifyRec s i
                    (fun rc => { rc with importedAs := rc.importedAs ++ er.importedAs }))
                    S :=
                  DoneAllX_modify _ _ _ _ _ (fun _ => rfl)
                    (fun rc _ => ⟨rfl, rfl, rfl, rfl, id, id,
                      fun _ hx => List.mem_append_left _ hx, fun _ _ hx => hx⟩)
                    hDS
                obtain ⟨rit, hrit, ritRule, ritLabel, ritFile, _, ritImp, _, _⟩ :=
                  diff_branch_at_i s i er ris hris
                have hrsT : ∀ ri0, nth (modifyRec s i
                    (fun rc =>
                      { rc with importedAs := rc.importedAs ++ er.importedAs })).rules i
                    = some ri0 →
                    (modifyRec s i
                      (fun rc =>
                        { rc with importedAs := rc.importedAs ++ er.importedAs })).mrslv
                      ri0.rule ri0.file.pkg = some rslv := by
                  intro ri0 h0
                  rw [hrit] at h0
                  cases h0
                  have : (modifyRec s i
                      (fun rc =>
                        { rc with importedAs := rc.importedAs ++ er.importedAs })).mrslv
                      = ix.mrslv := by
                    rw [hSt.mr, hsStep.mr]
                  rw [this, ritRule, ritFile, sri.rule, sri.file]
                  exact hrs ri hri
                obtain ⟨hD', hE'⟩ := ih σ S _ i rslv ix' hwT hσT hDT hrsT h
                have hLS := collectLoop_step ce hce rest _ i rslv ix' h
                refine ⟨hD', ?_⟩
                intro e' he'
                rcases List.mem_cons.mp he' with he' | he'
                · subst he'
                  apply EdgeDone_mono hLS
                  intro ri' hri' j hj rj' hrj'
                  rw [hrit] at hri'
                  cases hri'
                  rw [hSt.lmap, hsStep.lmap, ritLabel, sri.label] at hj
                  have hj' : findRuleByLabel ix e' ri.label = some j := hj
                  rw [hfind] at hj'
                  cases hj'
                  obtain ⟨ret, hret, _, retFlag, retRule, retFile, _⟩ :=
                    diff_branch_at_er s i erIdx er her
                  rw [hret] at hrj'
                  cases hrj'
                  refine ⟨by rw [retFlag]; exact her1flag, ?_, ?_⟩
                  · intro rslvi rslvj hi hj2 hn
                    exfalso
                    apply hname
                    have hi' : ix.mrslv ri.rule ri.file.pkg = some rslvi := by
                      rw [← sri.rule, ← sri.file, ← ritRule, ← ritFile,
                          ← hsStep.mr, ← hSt.mr]
                      exact hi
                    have hj2' : s.mrslv er.rule er.file.pkg = some rslvj := by
                      rw [← retRule, ← retFile, ← hSt.mr]
                      exact hj2
                    have e1 : rslvi = rslv := by
                      have := hrs ri hri
                      rw [hi'] at this
                      exact Option.some.inj this
                    have e2 : rslvj = erResolver := by
                      rw [herR] at hj2'
                      exact (Option.some.inj hj2').symm
                    rw [← e1, ← e2]
                    exact hn
                  · intro rjσ hjσ x hx
                    obtain ⟨er2, her2, s2⟩ := hσS.recs erIdx rjσ hjσ
                    rw [her] at her2
                    cases her2
                    rw [ritImp]
                    exact List.mem_append_right _ (s2.imports x hx)
                · exact hE' e' he'

theorem collectEmbedsF_done : ∀ (fuel : Nat), CeSpecDone (collectEmbedsF fuel) := by
  intro fuel
  induction fuel with
  | zero =>
    intro σ S ix i ix' _ _ _ h
    simp [collectEmbedsF] at h
  | succ n ih =>
    intro σ S ix i ix' hw hσ hD h
    simp only [collectEmbedsF] at h
    cases hri : nth ix.rules i with
    | none => rw [hri] at h; cases h; exact hD
    | some r =>
      rw [hri] at h
      dsimp only at h
      by_cases hflag : r.didCollectEmbeds
      · rw [if_pos hflag] at h; cases h; exact hD
      · rw [if_neg hflag] at h
        cases hmr : ix.mrslv r.rule r.file.pkg with
        | none => rw [hmr] at h; cases h
        | some resolver =>
          rw [hmr] at h
          dsimp only at h
          have hstep2 : Step ix (modifyRec ix i (fun rc =>
              { rc with didCollectEmbeds := true,
                        embeds := resolver.embeds r.rule r.label })) := by
            apply step_modifyRec
            intro rc hrc
            rw [hri] at hrc
            cases hrc
            exact ⟨rfl, rfl, rfl, rfl, fun _ => rfl, id, fun _ hx => hx,
                   fun hh => absurd hh (by simpa using hflag)⟩
          have h_ix2_i : nth (modifyRec ix i (fun rc =>
              { rc with didCollectEmbeds := true,
                        embeds := resolver.embeds r.rule r.label })).rules i
              = some { r with didCollectEmbeds := true,
                              embeds := resolver.embeds r.rule r.label } := by
            rw [nth_modifyRec, if_pos rfl, hri]
            rfl
          have hw2 := wf_step hw hstep2
          have hσ2 := hσ.trans hstep2
          have hD2 : DoneAllX σ (modifyRec ix i (fun rc =>
              { rc with didCollectEmbeds := true,
                        embeds := resolver.embeds r.rule r.label })) (i :: S) := by
            intro k hk rk hkr hfl
            have hki : k ≠ i := fun hc => hk (hc ▸ List.mem_cons_self i S)
            have hkS : k ∉ S := fun hc => hk (List.mem_cons_of_mem i hc)
            rw [nth_modifyRec, if_neg (fun hc : i = k => hki hc.symm)] at hkr
            exact Done_mono hstep2 k rk hkr hfl (hD k hkS rk hkr hfl)
          have hrs2 : ∀ ri0, nth (modifyRec ix i (fun rc =>
              { rc with didCollectEmbeds := true,
                        embeds := resolver.embeds r.rule r.label })).rules i
              = some ri0 →
              (modifyRec ix i (fun rc =>
                { rc with didCollectEmbeds := true,
                          embeds := resolver.embeds r.rule r.label })).mrslv
                ri0.rule ri0.file.pkg = some resolver := by
            intro ri0 h0
            rw [h_ix2_i] at h0
            cases h0
            exact hmr
          obtain ⟨hDL, hEdges⟩ := collectLoop_done (collectEmbedsF n)
            (collectEmbedsF_step n) ih (resolver.embeds r.rule r.label) σ (i :: S)
            _ i resolver ix' hw2 hσ2 hD2 hrs2 h
          have hLoopStep := collectLoop_step (collectEmbedsF n)
            (collectEmbedsF_step n) (resolver.embeds r.rule r.label) _ i resolver ix' h
          intro k hkS rk hkr hfl
          by_cases hki : k = i
          · subst hki
            intro rk0 hk0 rslv0 hr0
            obtain ⟨rkb, hkb, s1⟩ := hLoopStep.recs k _ h_ix2_i
            rw [hk0] at hkb
            cases hkb
            have hr0' : ix.mrslv r.rule r.file.pkg = some rslv0 := by
              rw [← hstep2.mr, ← hLoopStep.mr, ← s1.rule, ← s1.file]
              exact hr0
            have e0 : rslv0 = resolver := by
              rw [hmr] at hr0'
              exact (Option.some.inj hr0').symm
            subst e0
            have hlist : rslv0.embeds rk0.rule rk0.label
                = rslv0.embeds r.rule r.label := by
              rw [s1.rule, s1.label]
            rw [hlist]
            constructor
            · intro e he
              exact s1.embeds rfl e he
            · intro e he
              exact hEdges e he
          · have hkS' : k ∉ i :: S := by
              intro hc
              rcases List.mem_cons.mp hc with hc | hc
              · exact hki hc
              · exact hkS hc
            exact hDL k hkS' rk hkr hfl

theorem finishLoop_done (fuel : Nat) :
    ∀ (is : List Nat) (σ : RuleIndex) (S : List Nat) (ix ix' : RuleIndex),
      Wf ix → Step σ ix → DoneAllX σ ix S →
      finishLoop fuel ix is = .ok ix' → DoneAllX σ ix' S := by
  intro is
  induction is with
  | nil =>
    intro σ S ix ix' _ _ hD h
    simp only [finishLoop] at h
    cases h
    exact hD
  | cons i rest ih =>
    intro σ S ix ix' hw hσ hD h
    simp only [finishLoop] at h
    cases hce : collectEmbedsF fuel ix i with
    | error e => rw [hce] at h; cases h
    | ok m =>
      rw [hce] at h
      have hs := (collectEmbedsF_step fuel ix i m hce).1
      exact ih σ S m ix' (wf_step hw hs) (hσ.trans hs)
        (collectEmbedsF_done fuel σ S ix i m hw hσ hD hce) h

theorem finishLoop_flags (fuel : Nat) :
    ∀ (is : List Nat) (ix ix' : RuleIndex),
      finishLoop fuel ix is = .ok ix' →
      ∀ i ∈ is, ∀ ri', nth ix'.rules i = some ri' → ri'.didCollectEmbeds = true := by
  intro is
  induction is with
  | nil =>
    intro ix ix' _ i hi
    exact absurd hi (List.not_mem_nil i)
  | cons i0 rest ih =>
    intro ix ix' h i hi ri' hri'
    simp only [finishLoop] at h
    cases hce : collectEmbedsF fuel ix i0 with
    | error e => rw [hce] at h; cases h
    | ok m =>
      rw [hce] at h
      rcases List.mem_cons.mp hi with hi | hi
      · subst hi
        obtain ⟨hsStep, hsFlag⟩ := collectEmbedsF_step fuel ix i m hce
        have hrest := finishLoop_step fuel rest m ix' h
        obtain ⟨rm, hrm, srec⟩ := hrest.back i ri' hri'
        have hvalid : i < ix.rules.length := by
          have h1 := lt_of_nth_some _ _ _ hrm
          have h2 := hsStep.len
          omega
        obtain ⟨ri0, hri0⟩ := nth_isSome_of_lt ix.rules i hvalid
        obtain ⟨rm', hrm', hfl⟩ := hsFlag ri0 hri0
        rw [hrm] at hrm'
        cases hrm'
        exact srec.flag hfl
      · exact ih m ix' h i hi ri' hri'

/-! ### Provenance of the embedded flag and of embeds entries (for C4) -/

/-- There is a same-language embed edge from record `j` to record `k`. -/
def SLEdge (a : RuleIndex) (j k : Nat) : Prop :=
  ∃ rj rk rslvj rslvk,
    nth a.rules j = some rj ∧ nth a.rules k = some rk ∧
    a.mrslv rj.rule rj.file.pkg = some rslvj ∧
    a.mrslv rk.rule rk.file.pkg = some rslvk ∧
    rslvj.name = rslvk.name ∧
    ∃ e ∈ rslvj.embeds rj.rule rj.label,
      lookupLabel a.labelMap (e.abs rj.label.repo rj.label.pkg) = some k

theorem SLEdge_transport {a b : RuleIndex} (hstep : Step a b) (j k : Nat)
    (h : SLEdge b j k) : SLEdge a j k := by
  obtain ⟨rj, rk, rslvj, rslvk, hj, hk, hmj, hmk, hn, e, he, hl⟩ := h
  obtain ⟨rja, hja, sj⟩ := hstep.back j rj hj
  obtain ⟨rka, hka, sk⟩ := hstep.back k rk hk
  refine ⟨rja, rka, rslvj, rslvk, hja, hka, ?_, ?_, hn, e, ?_, ?_⟩
  · rw [← sj.rule, ← sj.file, ← hstep.mr]; exact hmj
  · rw [← sk.rule, ← sk.file, ← hstep.mr]; exact hmk
  · rw [← sj.rule, ← sj.label]; exact he
  · rw [← sj.label, ← hstep.lmap]; exact hl

/-- Where an `embedded = true` flag can come from: it was already set, or
some record has a same-language embed edge to this one. -/
def EmbProv (a b : RuleIndex) : Prop :=
  ∀ k rkb, nth b.rules k = some rkb → rkb.embedded = true →
    (∃ rka, nth a.rules k = some rka ∧ rka.embedded = true) ∨ ∃ j, SLEdge a j k

/-- Where an entry of an `embeds` field can come from: it was already there,
it is one of the record's own direct embed labels, or it came out of the
closure of a same-language child. -/
def EmbedsProv (a b : RuleIndex) : Prop :=
  ∀ k rkb, nth b.rules k = some rkb → ∀ x ∈ rkb.embeds,
    (∃ rka, nth a.rules k = some rka ∧ x ∈ rka.embeds) ∨
    (∃ rka rslv, nth a.rules k = some rka ∧
      a.mrslv rka.rule rka.file.pkg = some rslv ∧
      x ∈ rslv.embeds rka.rule rka.label) ∨
    (∃ j, SLEdge a k j ∧ ∃ rjb, nth b.rules j = some rjb ∧
      rjb.didCollectEmbeds = true ∧ x ∈ rjb.embeds)

theorem EmbProv_refl (a : RuleIndex) : EmbProv a a :=
  fun _ rkb hk hf => Or.inl ⟨rkb, hk, hf⟩

theorem EmbedsProv_refl (a : RuleIndex) : EmbedsProv a a :=
  fun _ rkb hk _ hx => Or.inl ⟨rkb, hk, hx⟩

theorem EmbProv_trans {a m b : RuleIndex} (s1 : Step a m)
    (h1 : EmbProv a m) (h2 : EmbProv m b) : EmbProv a b := by
  intro k rkb hk hf
  rcases h2 k rkb hk hf with ⟨rkm, hkm, hfm⟩ | ⟨j, he⟩
  · exact h1 k rkm hkm hfm
  · exact Or.inr ⟨j, SLEdge_transport s1 j k he⟩

theorem EmbedsProv_trans {a m b : RuleIndex} (s1 : Step a m) (s2 : Step m b)
    (h1 : EmbedsProv a m) (h2 : EmbedsProv m b) : EmbedsProv a b := by
  intro k rkb hk x hx
  rcases h2 k rkb hk x hx with ⟨rkm, hkm, hxm⟩ | h | ⟨j, hedge, rjb, hjb, hfl, hxj⟩
  · rcases h1 k rkm hkm x hxm with h' | h' | ⟨j, hedge, rjm, hjm, hflm, hxm'⟩
    · exact Or.inl h'
    · exact Or.inr (Or.inl h')
    · refine Or.inr (Or.inr ⟨j, hedge, ?_⟩)
      obtain ⟨rjb, hjb, sj⟩ := s2.recs j rjm hjm
      exact ⟨rjb, hjb, sj.flag hflm, sj.embeds hflm x hxm'⟩
  · obtain ⟨rkm, rslv, hkm, hmr, hxl⟩ := h
    obtain ⟨rka, hka, sk⟩ := s1.back k rkm hkm
    refine Or.inr (Or.inl ⟨rka, rslv, hka, ?_, ?_⟩)
    · rw [← sk.rule, ← sk.file, ← s1.mr]; exact hmr
    · rw [← sk.rule, ← sk.label]; exact hxl
  · exact Or.inr (Or.inr ⟨j, SLEdge_transport s1 k j hedge, rjb, hjb, hfl, hxj⟩)

theorem same_branch_nth_other (s : RuleIndex) (i erIdx k : Nat) (er : RuleRecord)
    (hik : ¬ i = k) (herk : ¬ erIdx = k) :
    nth (modifyRec (modifyRec (modifyRec s erIdx
      (fun rc => { rc with embedded := true })) i
      (fun rc => { rc with embeds := rc.embeds ++ er.embeds })) i
      (fun rc => { rc with importedAs := rc.importedAs ++ er.importedAs })).rules k
    = nth s.rules k := by
  rw [nth_modifyRec, if_neg hik, nth_modifyRec, if_neg hik, nth_modifyRec, if_neg herk]

theorem diff_branch_nth_other (s : RuleIndex) (i k : Nat) (er : RuleRecord)
    (hik : ¬ i = k) :
    nth (modifyRec s i
      (fun rc => { rc with importedAs := rc.importedAs ++ er.importedAs })).rules k
    = nth s.rules k := by
  rw [nth_modifyRec, if_neg hik]

/-- Provenance specification of the recursive call handed to the loop. -/
def CeSpecProv (ce : RuleIndex → Nat → Except CEErr RuleIndex) : Prop :=
  ∀ ix i ix', ce ix i = .ok ix' → EmbProv ix ix' ∧ EmbedsProv ix ix'

theorem collectLoop_prov (ce : RuleIndex → Nat → Except CEErr RuleIndex)
    (hce : CeSpec ce) (hprov : CeSpecProv ce) :
    ∀ (es : List Label) (ix : RuleIndex) (i : Nat) (rslv : Resolver)
      (ix' : RuleIndex),
      (∀ ri0, nth ix.rules i = some ri0 →
        ix.mrslv ri0.rule ri0.file.pkg = some rslv) →
      (∀ ri0, nth ix.rules i = some ri0 →
        ∀ e ∈ es, e ∈ rslv.embeds ri0.rule ri0.label) →
      collectLoop ce ix i rslv es = .ok ix' →
      EmbProv ix ix' ∧ EmbedsProv ix ix' := by
  intro es
  induction es with
  | nil =>
    intro ix i rslv ix' _ _ h
    simp only [collectLoop] at h
    cases h
    exact ⟨EmbProv_refl ix, EmbedsProv_refl ix⟩
  | cons e rest ih =>
    intro ix i rslv ix' hrs hsub h
    simp only [collectLoop] at h
    cases hri : nth ix.rules i with
    | none =>
      rw [hri] at h
      cases h
      exact ⟨EmbProv_refl ix, EmbedsProv_refl ix⟩
    | some ri =>
      rw [hri] at h
      dsimp only at h
      cases hfind : findRuleByLabel ix e ri.label with
      | none =>
        rw [hfind] at h
        exact ih ix i rslv ix' hrs
          (fun ri0 h0 e' he' => hsub ri0 h0 e' (List.mem_cons_of_mem e he')) h
      | some erIdx =>
        rw [hfind] at h
        dsimp only at h
        cases hce' : ce ix erIdx with
        | error err => rw [hce'] at h; cases h
        | ok s =>
          rw [hce'] at h
          dsimp only at h
          obtain ⟨hsStep, hsFlag⟩ := hce ix erIdx s hce'
          obtain ⟨hPeS, hPxS⟩ := hprov ix erIdx s hce'
          cases her : nth s.rules erIdx with
          | none => rw [her] at h; cases h
          | some er =>
            rw [her] at h
            dsimp only at h
            cases herR : s.mrslv er.rule er.file.pkg with
            | none => rw [herR] at h; cases h
            | some erResolver =>
              rw [herR] at h
              dsimp only at h
              obtain ⟨ris, hris, sri⟩ := hsStep.recs i ri hri
              have hlt : erIdx < ix.rules.length := by
                have h1 := lt_of_nth_some _ _ _ her
                have h2 := hsStep.len
                omega
              obtain ⟨rc0, hrc0⟩ := nth_isSome_of_lt ix.rules erIdx hlt
              obtain ⟨er1, her1, herflag⟩ := hsFlag rc0 hrc0
              rw [her] at her1
              cases her1
              obtain ⟨er2, her2, src0⟩ := hsStep.recs erIdx rc0 hrc0
              rw [her] at her2
              cases her2
              have hmrErIx : ix.mrslv rc0.rule rc0.file.pkg = some erResolver := by
                rw [← src0.rule, ← src0.file, ← hsStep.mr]
                exact herR
              have hmrRiS : s.mrslv ris.rule ris.file.pkg = some rslv := by
                rw [hsStep.mr, sri.rule, sri.file]
                exact hrs ri hri
              have hsubS : ∀ e' ∈ e :: rest, e' ∈ rslv.embeds ris.rule ris.label := by
                intro e' he'
                rw [sri.rule, sri.label]
                exact hsub ri hri e' he'
              have hlookS : lookupLabel s.labelMap
                  (e.abs ris.label.repo ris.label.pkg) = some erIdx := by
                rw [hsStep.lmap, sri.label]
                exact hfind
              by_cases hname : rslv.name = erResolver.name
              · rw [if_pos hname] at h
                have hSLEs : SLEdge s i erIdx :=
                  ⟨ris, er, rslv, erResolver, hris, her, hmrRiS,
                   herR, hname, e, hsubS e (List.mem_cons_self e rest),
                   hlookS⟩
                have hSt := step_loop_same s i erIdx er
                obtain ⟨rit, hrit, ritRule, ritLabel, ritFile, _, _,
                  ritEmbeds, ritEmbNe⟩ := same_branch_at_i s i erIdx er ris hris
                have hPeT : EmbProv s (modifyRec (modifyRec (modifyRec s erIdx
                    (fun rc => { rc with embedded := true })) i
                    (fun rc => { rc with embeds := rc.embeds ++ er.embeds })) i
                    (fun rc =>
                      { rc with importedAs := rc.importedAs ++ er.importedAs })) := by
                  intro k rkb hk hf
                  by_cases hke : erIdx = k
                  · subst hke
                    exact Or.inr ⟨i, hSLEs⟩
                  · by_cases hki : i = k
                    · subst hki
                      rw [hrit] at hk
                      cases hk
                      left
                      exact ⟨ris, hris, by rw [← ritEmbNe hke]; exact hf⟩
                    · rw [same_branch_nth_other s i erIdx k er hki hke] at hk
                      exact Or.inl ⟨rkb, hk, hf⟩
                have hPxT : EmbedsProv s (modifyRec (modifyRec (modifyRec s erIdx
                    (fun rc => { rc with embedded := true })) i
                    (fun rc => { rc with embeds := rc.embeds ++ er.embeds })) i
                    (fun rc =>
                      { rc with importedAs := rc.importedAs ++ er.importedAs })) := by
                  intro k rkb hk x hx
                  by_cases hki : i = k
                  · subst hki
                    rw [hrit] at hk
                    cases hk
                    rw [ritEmbeds] at hx
                    rcases List.mem_append.mp hx with hx | hx
                    · exact Or.inl ⟨ris, hris, hx⟩
                    · obtain ⟨ret, hret, _, retFlag, _, _, _, retSub⟩ :=
                        same_branch_at_er s i erIdx er her
                      exact Or.inr (Or.inr ⟨erIdx, hSLEs, ret, hret,
                        by rw [retFlag]; exact herflag, retSub x hx⟩)
                  · by_cases hke : erIdx = k
                    · subst hke
                      have hoth : nth (modifyRec (modifyRec (modifyRec s erIdx
                          (fun rc => { rc with embedded := true })) i
                          (fun rc => { rc with embeds := rc.embeds ++ er.embeds })) i
                          (fun rc =>
                            { rc with
                              importedAs := rc.importedAs ++ er.importedAs })).rules
                            erIdx
                          = some { er with embedded := true } := by
                        rw [nth_modifyRec, if_neg hki, nth_modifyRec, if_neg hki,
                            nth_modifyRec, if_pos rfl, her]
                        rfl
                      rw [hoth] at hk
                      cases hk
                      exact Or.inl ⟨er, her, hx⟩
                    · rw [same_branch_nth_other s i erIdx k er hki hke] at hk
                      exact Or.inl ⟨rkb, hk, hx⟩
                have hrsT : ∀ ri0, nth (modifyRec (modifyRec (modifyRec s erIdx
                    (fun rc => { rc with embedded := true })) i
                    (fun rc => { rc with embeds := rc.embeds ++ er.embeds })) i
                    (fun rc =>
                      { rc with importedAs := rc.importedAs ++ er.importedAs })).rules i
                    = some ri0 →
                    (modifyRec (modifyRec (modifyRec s erIdx
                      (fun rc => { rc with embedded := true })) i
                      (fun rc => { rc with embeds := rc.embeds ++ er.embeds })) i
                      (fun rc =>
                        { rc with importedAs := rc.importedAs ++ er.importedAs })).mrslv
                      ri0.rule ri0.file.pkg = some rslv := by
                  intro ri0 h0
                  rw [hrit] at h0
                  cases h0
                  have hmr' : (modifyRec (modifyRec (modifyRec s erIdx
                      (fun rc => { rc with embedded := true })) i
                      (fun rc => { rc with embeds := rc.embeds ++ er.embeds })) i
                      (fun rc =>
                        { rc with importedAs := rc.importedAs ++ er.importedAs })).mrslv
                      = s.mrslv := hSt.mr
                  rw [hmr', ritRule, ritFile]
                  exact hmrRiS
                have hsubT : ∀ ri0, nth (modifyRec (modifyRec (modifyRec s erIdx
                    (fun rc => { rc with embedded := true })) i
                    (fun rc => { rc with embeds := rc.embeds ++ er.embeds })) i
                    (fun rc =>
                      { rc with importedAs := rc.importedAs ++ er.importedAs })).rules i
                    = some ri0 →
                    ∀ e' ∈ rest, e' ∈ rslv.embeds ri0.rule ri0.label := by
                  intro ri0 h0 e' he'
                  rw [hrit] at h0
                  cases h0
                  rw [ritRule, ritLabel]
                  exact hsubS e' (List.mem_cons_of_mem e he')
                obtain ⟨hPe', hPx'⟩ := ih _ i rslv ix' hrsT hsubT h
                have hLS := collectLoop_step ce hce rest _ i rslv ix' h
                constructor
                · exact EmbProv_trans hsStep hPeS
                    (EmbProv_trans hSt hPeT hPe')
                · exact EmbedsProv_trans hsStep (hSt.trans hLS) hPxS
                    (EmbedsProv_trans hSt hLS hPxT hPx')
              · rw [if_neg hname] at h
                have hSt := step_loop_diff s i er
                obtain ⟨rit, hrit, ritRule, ritLabel, ritFile, _, _,
                  ritEmbeds, ritEmbd⟩ := diff_branch_at_i s i er ris hris
                have hPeT : EmbProv s (modifyRec s i
                    (fun rc =>
                      { rc with importedAs := rc.importedAs ++ er.importedAs })) := by
                  intro k rkb hk hf
                  by_cases hki : i = k
                  · subst hki
                    rw [hrit] at hk
                    cases hk
                    left
                    exact ⟨ris, hris, by rw [← ritEmbd]; exact hf⟩
                  · rw [diff_branch_nth_other s i k er hki] at hk
                    exact Or.inl ⟨rkb, hk, hf⟩
                have hPxT : EmbedsProv s (modifyRec s i
                    (fun rc =>
                      { rc with importedAs := rc.importedAs ++ er.importedAs })) := by
                  intro k rkb hk x hx
                  by_cases hki : i = k
                  · subst hki
                    rw [hrit] at hk
                    cases hk
                    rw [ritEmbeds] at hx
                    exact Or.inl ⟨ris, hris, hx⟩
                  · rw [diff_branch_nth_other s i k er hki] at hk
                    exact Or.inl ⟨rkb, hk, hx⟩
                have hrsT : ∀ ri0, nth (modifyRec s i
                    (fun rc =>
                      { rc with importedAs := rc.importedAs ++ er.importedAs })).rules i
                    = some ri0 →
                    (modifyRec s i
                      (fun rc =>
                        { rc with importedAs := rc.importedAs ++ er.importedAs })).mrslv
                      ri0.rule ri0.file.pkg = some rslv := by
                  intro ri0 h0
                  rw [hrit] at h0
                  cases h0
                  have hmr' : (modifyRec s i
                      (fun rc =>
                        { rc with importedAs := rc.importedAs ++ er.importedAs })).mrslv
                      = s.mrslv := hSt.mr
                  rw [hmr', ritRule, ritFile]
                  exact hmrRiS
                have hsubT : ∀ ri0, nth (modifyRec s i
                    (fun rc =>
                      { rc with importedAs := rc.importedAs ++ er.importedAs })).rules i
                    = some ri0 →
                    ∀ e' ∈ rest, e' ∈ rslv.embeds ri0.rule ri0.label := by
                  intro ri0 h0 e' he'
                  rw [hrit] at h0
                  cases h0
                  rw [ritRule, ritLabel]
                  exact hsubS e' (List.mem_cons_of_mem e he')
                obtain ⟨hPe', hPx'⟩ := ih _ i rslv ix' hrsT hsubT h
                have hLS := collectLoop_step ce hce rest _ i rslv ix' h
                constructor
                · exact EmbProv_trans hsStep hPeS
                    (EmbProv_trans hSt hPeT hPe')
                · exact EmbedsProv_trans hsStep (hSt.trans hLS) hPxS
                    (EmbedsProv_trans hSt hLS hPxT hPx')

theorem collectEmbedsF_prov : ∀ (fuel : Nat), CeSpecProv (collectEmbedsF fuel) := by
  intro fuel
  induction fuel with
  | zero =>
    intro ix i ix' h
    simp [collectEmbedsF] at h
  | succ n ih =>
    intro ix i ix' h
    simp only [collectEmbedsF] at h
    cases hri : nth ix.rules i with
    | none =>
      rw [hri] at h
      cases h
      exact ⟨EmbProv_refl ix, EmbedsProv_refl ix⟩
    | some r =>
      rw [hri] at h
      dsimp only at h
      by_cases hflag : r.didCollectEmbeds
      · rw [if_pos hflag] at h
        cases h
        exact ⟨EmbProv_refl ix, EmbedsProv_refl ix⟩
      · rw [if_neg hflag] at h
        cases hmr : ix.mrslv r.rule r.file.pkg with
        | none => rw [hmr] at h; cases h
        | some resolver =>
          rw [hmr] at h
          dsimp only at h
          have hstep2 : Step ix (modifyRec ix i (fun rc =>
              { rc with didCollectEmbeds := true,
                        embeds := resolver.embeds r.rule r.label })) := by
            apply step_modifyRec
            intro rc hrc
            rw [hri] at hrc
            cases hrc
            exact ⟨rfl, rfl, rfl, rfl, fun _ => rfl, id, fun _ hx => hx,
                   fun hh => absurd hh (by simpa using hflag)⟩
          have h_ix2_i : nth (modifyRec ix i (fun rc =>
              { rc with didCollectEmbeds := true,
                        embeds := resolver.embeds r.rule r.label })).rules i
              = some { r with didCollectEmbeds := true,
                              embeds := resolver.embeds r.rule r.label } := by
            rw [nth_modifyRec, if_pos rfl, hri]
            rfl
          have hPe2 : EmbProv ix (modifyRec ix i (fun rc =>
              { rc with didCollectEmbeds := true,
                        embeds := resolver.embeds r.rule r.label })) := by
            intro k rkb hk hf
            by_cases hki : i = k
            · subst hki
              rw [h_ix2_i] at hk
              cases hk
              exact Or.inl ⟨r, hri, hf⟩
            · rw [nth_modifyRec, if_neg hki] at hk
              exact Or.inl ⟨rkb, hk, hf⟩
          have hPx2 : EmbedsProv ix (modifyRec ix i (fun rc =>
              { rc with didCollectEmbeds := true,
                        embeds := resolver.embeds r.rule r.label })) := by
            intro k rkb hk x hx
            by_cases hki : i = k
            · subst hki
              rw [h_ix2_i] at hk
              cases hk
              exact Or.inr (Or.inl ⟨r, resolver, hri, hmr, hx⟩)
            · rw [nth_modifyRec, if_neg hki] at hk
              exact Or.inl ⟨rkb, hk, hx⟩
          have hrs2 : ∀ ri0, nth (modifyRec ix i (fun rc =>
              { rc with didCollectEmbeds := true,
                        embeds := resolver.embeds r.rule r.label })).rules i
              = some ri0 →
              (modifyRec ix i (fun rc =>
                { rc with didCollectEmbeds := true,
                          embeds := resolver.embeds r.rule r.label })).mrslv
                ri0.rule ri0.file.pkg = some resolver := by
            intro ri0 h0
            rw [h_ix2_i] at h0
            cases h0
            exact hmr
          have hsub2 : ∀ ri0, nth (modifyRec ix i (fun rc =>
              { rc with didCollectEmbeds := true,
                        embeds := resolver.embeds r.rule r.label })).rules i
              = some ri0 →
              ∀ e ∈ resolver.embeds r.rule r.label,
                e ∈ resolver.embeds ri0.rule ri0.label := by
            intro ri0 h0 e he
            rw [h_ix2_i] at h0
            cases h0
            exact he
          obtain ⟨hPe', hPx'⟩ := collectLoop_prov (collectEmbedsF n)
            (collectEmbedsF_step n) ih (resolver.embeds r.rule r.label)
            _ i resolver ix' hrs2 hsub2 h
          have hLS := collectLoop_step (collectEmbedsF n) (collectEmbedsF_step n)
            (resolver.embeds r.rule r.label) _ i resolver ix' h
          constructor
          · exact EmbProv_trans hstep2 hPe2 hPe'
          · exact EmbedsProv_trans hstep2 hLS hPx2 hPx'

theorem finishLoop_prov (fuel : Nat) :
    ∀ (is : List Nat) (ix ix' : RuleIndex),
      finishLoop fuel ix is = .ok ix' → EmbProv ix ix' ∧ EmbedsProv ix ix' := by
  intro is
  induction is with
  | nil =>
    intro ix ix' h
    simp only [finishLoop] at h
    cases h
    exact ⟨EmbProv_refl ix, EmbedsProv_refl ix⟩
  | cons i rest ih =>
    intro ix ix' h
    simp only [finishLoop] at h
    cases hce : collectEmbedsF fuel ix i with
    | error e => rw [hce] at h; cases h
    | ok m =>
      rw [hce] at h
      obtain ⟨hPe1, hPx1⟩ := collectEmbedsF_prov fuel ix i m hce
      obtain ⟨hPe2, hPx2⟩ := ih m ix' h
      have hs1 := (collectEmbedsF_step fuel ix i m hce).1
      have hs2 := finishLoop_step fuel rest m ix' h
      exact ⟨EmbProv_trans hs1 hPe1 hPe2, EmbedsProv_trans hs1 hs2 hPx1 hPx2⟩

/-! ### C2 -/

/-- C2 amended: for indexed rules A (at `ia`) and B (at `ib`) of the same
language where A's resolver embeds B's label, after Finish (i) B is marked
embedded, (ii) no query ever returns a result labelled B, and (iii) provided
A itself ends up not embedded, querying any ImportSpec that B originally
declared, with B's language, returns a result for A whose Embeds list
contains B's label. -/
theorem claimC2_theorem :
    ∀ (ix ixF : RuleIndex) (ia ib : Nat) (ra rb : RuleRecord),
      Wf ix → PreFinish ix →
      nth ix.rules ia = some ra → nth ix.rules ib = some rb →
      ra.lang = rb.lang →
      (∀ rslv, ix.mrslv ra.rule ra.file.pkg = some rslv →
        rb.label ∈ rslv.embeds ra.rule ra.label) →
      ix.Finish = .ok ixF →
      (∀ rb', nth ixF.rules ib = some rb' → rb'.embedded = true) ∧
      (∀ (imp : ImportSpec) (lang : String) (res : FindResult),
        res ∈ ixF.FindRulesByImport imp lang → res.label ≠ rb.label) ∧
      (∀ ra', nth ixF.rules ia = some ra' → ra'.embedded = false →
        ∀ imp ∈ rb.importedAs,
          ∃ res ∈ ixF.FindRulesByImport imp rb.lang,
            res.label = ra.label ∧ rb.label ∈ res.embeds) := by
  intro ix ixF ia ib ra rb hw hpre hra hrb hLang hEmb hFin
  obtain ⟨m, hFL, hixF⟩ := Finish_ok_elim ix ixF hFin
  have hrulesF : ixF.rules = m.rules := by rw [hixF]; rfl
  have himapF : ixF.importMap = buildImportMap (enumFrom 0 m.rules) [] := by
    rw [hixF]; rfl
  have hMid : Step ix m := finishLoop_step _ _ ix m hFL
  have hwMid : Wf m := wf_step hw hMid
  have hD0 : DoneAllX ix ix [] := by
    intro k _ rk hk hfl
    rw [(hpre.flags k rk hk).1] at hfl
    cases hfl
  have hDmid : DoneAllX ix m [] :=
    finishLoop_done _ _ ix [] ix m hw (Step.refl ix) hD0 hFL
  have hFlags := finishLoop_flags (ix.rules.length + 1) (List.range ix.rules.length)
    ix m hFL
  obtain ⟨ram, hram, sra⟩ := hMid.recs ia ra hra
  have hiaRange : ia ∈ List.range ix.rules.length :=
    List.mem_range.mpr (lt_of_nth_some _ _ _ hra)
  have hramFlag : ram.didCollectEmbeds = true := hFlags ia hiaRange ram hram
  have hDoneA : Done ix m ia := hDmid ia (List.not_mem_nil ia) ram hram hramFlag
  obtain ⟨rslvA, hmrA, hnameA⟩ := hw.provider ia ra hra
  have hmrAm : m.mrslv ram.rule ram.file.pkg = some rslvA := by
    rw [hMid.mr, sra.rule, sra.file]
    exact hmrA
  obtain ⟨hembsMem, hedges⟩ := hDoneA ram hram rslvA hmrAm
  have hBin : rb.label ∈ rslvA.embeds ram.rule ram.label := by
    rw [sra.rule, sra.label]
    exact hEmb rslvA hmrA
  have hED : EdgeDone ix m ia rb.label := hedges rb.label hBin
  obtain ⟨rbm, hrbm, srb⟩ := hMid.recs ib rb hrb
  have hlook : lookupLabel m.labelMap
      ((rb.label).abs ram.label.repo ram.label.pkg) = some ib := by
    rw [Label.abs_absolute rb.label (hw.abs ib rb hrb), hMid.lmap]
    exact wf_lookup_complete hw ib rb hrb
  obtain ⟨hBflag, hBemb, hBimp⟩ := hED ram hram ib hlook rbm hrbm
  obtain ⟨rslvB, hmrB, hnameB⟩ := hw.provider ib rb hrb
  have hmrBm : m.mrslv rbm.rule rbm.file.pkg = some rslvB := by
    rw [hMid.mr, srb.rule, srb.file]
    exact hmrB
  have hBembedded : rbm.embedded = true := by
    apply hBemb rslvA rslvB hmrAm hmrBm
    rw [hnameA, hnameB, hLang]
  refine ⟨?_, ?_, ?_⟩
  · intro rb' hrb'
    rw [hrulesF, hrbm] at hrb'
    cases hrb'
    exact hBembedded
  · intro imp lang res hres
    rw [findRules_mem_iff] at hres
    obtain ⟨j, rc, hbucket, hrc, _, hresEq⟩ := hres
    rw [himapF] at hbucket
    rw [hrulesF] at hrc
    obtain ⟨rc', hrc', hembF, _⟩ := (bucket_mem_iff m.rules imp j).mp hbucket
    rw [hrc] at hrc'
    cases hrc'
    intro hlab
    have hlab' : rc.label = rbm.label := by
      rw [srb.label]
      rw [hresEq] at hlab
      exact hlab
    have hj1 := wf_lookup_complete hwMid j rc hrc
    have hj2 := wf_lookup_complete hwMid ib rbm hrbm
    rw [hlab', hj2] at hj1
    cases hj1
    rw [hrbm] at hrc
    cases hrc
    rw [hBembedded] at hembF
    cases hembF
  · intro ra' hra' hraEmb imp himpB
    rw [hrulesF, hram] at hra'
    cases hra'
    have himpA : imp ∈ ram.importedAs := hBimp rb hrb imp himpB
    have hbucket : ia ∈ importMapGet (buildImportMap (enumFrom 0 m.rules) []) imp :=
      (bucket_mem_iff m.rules imp ia).mpr ⟨ram, hram, hraEmb, himpA⟩
    refine ⟨{ label := ram.label, embeds := ram.embeds }, ?_,
            sra.label, hembsMem rb.label hBin⟩
    rw [findRules_mem_iff]
    refine ⟨ia, ram, ?_, ?_, ?_, rfl⟩
    · rw [himapF]; exact hbucket
    · rw [hrulesF]; exact hram
    · rw [sra.lang]; exact hLang

/-- Two-rule scenario for the C2 witness: `a` embeds `b`, nothing embeds `a`. -/
def exPairIx : RuleIndex :=
  addD (addD (NewRuleIndex (fun _ _ => some chainRes) []) cfg0 ruleB pkgFile)
    cfg0 ruleA pkgFile

def exPairFin : RuleIndex := finishD exPairIx

/-- Witness for the amended C2 at a concrete input: in the two-rule scenario,
the query for b's import returns a with b's label in its Embeds. -/
theorem claimC2_witness :
    ∃ res ∈ exPairFin.FindRulesByImport { lang := "go", imp := "pkg/b" } "go",
      res.label = lbl "a" ∧ lbl "b" ∈ res.embeds := by
  have h := claimC2_theorem exPairIx exPairFin 1 0 (recD exPairIx 1) (recD exPairIx 0)
    (wf_of_check _ (by decide)) (preFinish_of_check _ (by decide)) rfl rfl rfl
    (fun rslv hr => by
      have hc : rslv = chainRes := by
        have h0 : exPairIx.mrslv (recD exPairIx 1).rule (recD exPairIx 1).file.pkg
            = some chainRes := rfl
        rw [h0] at hr
        exact (Option.some.inj hr).symm
      rw [hc]
      decide) rfl
  exact h.2.2 (recD exPairFin 1) rfl (by decide)
    { lang := "go", imp := "pkg/b" } (by decide)

/-! ### C4 -/

/-- Executable check that no record has a same-language embed edge to
record `k`. -/
def noSLEdgeTo (ix : RuleIndex) (k : Nat) : Bool :=
  ix.rules.all (fun rj =>
    match ix.mrslv rj.rule rj.file.pkg,
          (nth ix.rules k).bind (fun rk => ix.mrslv rk.rule rk.file.pkg) with
    | some rslvj, some rslvk =>
      if rslvj.name == rslvk.name then
        (rslvj.embeds rj.rule rj.label).all (fun e =>
          !(lookupLabel ix.labelMap (e.abs rj.label.repo rj.label.pkg) == some k))
      else true
    | _, _ => true)

theorem noSLEdge_of_check (ix : RuleIndex) (k : Nat) (h : noSLEdgeTo ix k = true) :
    ∀ j, ¬ SLEdge ix j k := by
  intro j hedge
  obtain ⟨rj, rk, rslvj, rslvk, hj, hk, hmj, hmk, hn, e, he, hl⟩ := hedge
  rw [noSLEdgeTo, List.all_eq_true] at h
  have hrj := h rj (mem_of_nth_some _ _ _ hj)
  rw [hk] at hrj
  simp only [Option.some_bind] at hrj
  rw [hmj, hmk] at hrj
  dsimp only at hrj
  rw [if_pos (beq_iff_eq.mpr hn)] at hrj
  rw [List.all_eq_true] at hrj
  have := hrj e he
  rw [hl] at this
  simp at this

/-- C4 amended: for indexed rules A (at `ia`) and B (at `ib`) of different
languages where A's resolver embeds B's label, after Finish (1) the
importedAs of A contains all of B's original importedAs entries; (2) provided no
record has a same-language embed edge to B, B's embedded flag remains false;
(3) every entry of A's embeds is either one of A's own direct embed labels
or comes out of the closure of a same-language child of A — and B, being of
a different language, is not such a child, so none of B's embeds entries are
appended to A's embeds through the A→B edge. -/
theorem claimC4_theorem :
    ∀ (ix ixF : RuleIndex) (ia ib : Nat) (ra rb : RuleRecord),
      Wf ix → PreFinish ix →
      nth ix.rules ia = some ra → nth ix.rules ib = some rb →
      ra.lang ≠ rb.lang →
      (∀ rslv, ix.mrslv ra.rule ra.file.pkg = some rslv →
        rb.label ∈ rslv.embeds ra.rule ra.label) →
      ix.Finish = .ok ixF →
      (∀ ra', nth ixF.rules ia = some ra' →
        ∀ x ∈ rb.importedAs, x ∈ ra'.importedAs) ∧
      ((∀ j, ¬ SLEdge ix j ib) →
        ∀ rb', nth ixF.rules ib = some rb' → rb'.embedded = false) ∧
      (∀ ra', nth ixF.rules ia = some ra' → ∀ x ∈ ra'.embeds,
        (∃ rslv, ix.mrslv ra.rule ra.file.pkg = some rslv ∧
          x ∈ rslv.embeds ra.rule ra.label) ∨
        (∃ j, j ≠ ib ∧ SLEdge ix ia j ∧
          ∃ rj', nth ixF.rules j = some rj' ∧ x ∈ rj'.embeds)) := by
  intro ix ixF ia ib ra rb hw hpre hra hrb hLangNe hEmb hFin
  obtain ⟨m, hFL, hixF⟩ := Finish_ok_elim ix ixF hFin
  have hrulesF : ixF.rules = m.rules := by rw [hixF]; rfl
  have hMid : Step ix m := finishLoop_step _ _ ix m hFL
  have hD0 : DoneAllX ix ix [] := by
    intro k _ rk hk hfl
    rw [(hpre.flags k rk hk).1] at hfl
    cases hfl
  have hDmid : DoneAllX ix m [] :=
    finishLoop_done _ _ ix [] ix m hw (Step.refl ix) hD0 hFL
  have hFlags := finishLoop_flags (ix.rules.length + 1) (List.range ix.rules.length)
    ix m hFL
  obtain ⟨ram, hram, sra⟩ := hMid.recs ia ra hra
  have hiaRange : ia ∈ List.range ix.rules.length :=
    List.mem_range.mpr (lt_of_nth_some _ _ _ hra)
  have hramFlag : ram.didCollectEmbeds = true := hFlags ia hiaRange ram hram
  have hDoneA : Done ix m ia := hDmid ia (List.not_mem_nil ia) ram hram hramFlag
  obtain ⟨rslvA, hmrA, hnameA⟩ := hw.provider ia ra hra
  have hmrAm : m.mrslv ram.rule ram.file.pkg = some rslvA := by
    rw [hMid.mr, sra.rule, sra.file]
    exact hmrA
  obtain ⟨hembsMem, hedges⟩ := hDoneA ram hram rslvA hmrAm
  have hBin : rb.label ∈ rslvA.embeds ram.rule ram.label := by
    rw [sra.rule, sra.label]
    exact hEmb rslvA hmrA
  have hED : EdgeDone ix m ia rb.label := hedges rb.label hBin
  obtain ⟨rbm, hrbm, srb⟩ := hMid.recs ib rb hrb
  have hlook : lookupLabel m.labelMap
      ((rb.label).abs ram.label.repo ram.label.pkg) = some ib := by
    rw [Label.abs_absolute rb.label (hw.abs ib rb hrb), hMid.lmap]
    exact wf_lookup_complete hw ib rb hrb
  obtain ⟨_, _, hBimp⟩ := hED ram hram ib hlook rbm hrbm
  obtain ⟨hPe, hPx⟩ := finishLoop_prov _ _ ix m hFL
  refine ⟨?_, ?_, ?_⟩
  · intro ra' hra' x hx
    rw [hrulesF, hram] at hra'
    cases hra'
    exact hBimp rb hrb x hx
  · intro hnoedge rb' hrb'
    rw [hrulesF, hrbm] at hrb'
    cases hrb'
    cases hbe : rbm.embedded with
    | false => rfl
    | true =>
      exfalso
      rcases hPe ib rbm hrbm hbe with ⟨rka, hka, hfe⟩ | ⟨j, hedge⟩
      · rw [hrb] at hka
        cases hka
        rw [(hpre.flags ib rb hrb).2.1] at hfe
        cases hfe
      · exact hnoedge j hedge
  · intro ra' hra' x hx
    rw [hrulesF, hram] at hra'
    cases hra'
    rcases hPx ia ram hram x hx with ⟨rka, hka, hxe⟩ |
      ⟨rka, rslv, hka, hmr', hxl⟩ | ⟨j, hedge, rj', hj', _, hxj⟩
    · exfalso
      rw [hra] at hka
      cases hka
      exact absurd ((hpre.flags ia ra hra).2.2 ▸ hxe) (List.not_mem_nil x)
    · left
      rw [hra] at hka
      cases hka
      exact ⟨rslv, hmr', hxl⟩
    · right
      refine ⟨j, ?_, hedge, rj', by rw [hrulesF]; exact hj', hxj⟩
      intro hjeq
      rw [hjeq] at hedge
      obtain ⟨rj0, rk0, rslvj, rslvk, hj0, hk0, hmj, hmk, hneq, _⟩ := hedge
      rw [hra] at hj0
      cases hj0
      rw [hrb] at hk0
      cases hk0
      obtain ⟨rslvB, hmrB, hnameB⟩ := hw.provider ib rb hrb
      have e1 : rslvA = rslvj := Option.some.inj (hmrA.symm.trans hmj)
      have e2 : rslvB = rslvk := Option.some.inj (hmrB.symm.trans hmk)
      apply hLangNe
      rw [← hnameA, ← hnameB, e1, e2]
      exact hneq

/-- Witness for the amended C4 at a concrete input: in the cross-language
pair scenario, a inherits b's proto import, and b stays un-embedded. -/
theorem claimC4_witness :
    (({ lang := "proto", imp := "b.proto" } : ImportSpec)
       ∈ (recD exCross2Fin 1).importedAs) ∧
    (recD exCross2Fin 0).embedded = false := by
  have h := claimC4_theorem exCross2Ix exCross2Fin 1 0 (recD exCross2Ix 1)
    (recD exCross2Ix 0)
    (wf_of_check _ (by decide)) (preFinish_of_check _ (by decide)) rfl rfl
    (by decide)
    (fun rslv hr => by
      have hc : rslv = crossGoRes := by
        have h0 : exCross2Ix.mrslv (recD exCross2Ix 1).rule
            (recD exCross2Ix 1).file.pkg = some crossGoRes := rfl
        rw [h0] at hr
        exact (Option.some.inj hr).symm
      rw [hc]
      decide) rfl
  exact ⟨h.1 (recD exCross2Fin 1) rfl { lang := "proto", imp := "b.proto" }
           (by decide),
         h.2.1 (noSLEdge_of_check exCross2Ix 0 (by decide))
           (recD exCross2Fin 0) rfl⟩

/-! ### C6 -/

/-- C6: a rule whose provider returns nil from Imports is dropped at AddRule
time (the index is unchanged); after Finish, no query result ever carries a
label that is not in the label map (so the dropped rule never appears in any
query result, even if other rules embed its label); and an embed label that
resolves to no record is skipped by the collection loop without changing
anything. -/
theorem claimC6_theorem :
    (∀ (ix : RuleIndex) (c : Config) (r : Rule) (f : File) (rslv : Resolver),
        ix.didFinish = false →
        ix.mrslv r f.pkg = some rslv →
        rslv.imports c r f = none →
        ix.AddRule c r f = some ix) ∧
    (∀ (ix ixF : RuleIndex) (l : Label), Wf ix → ix.Finish = .ok ixF →
        lookupLabel ix.labelMap l = none →
        ∀ (imp : ImportSpec) (lang : String) (res : FindResult),
          res ∈ ixF.FindRulesByImport imp lang → res.label ≠ l) ∧
    (∀ (ce : RuleIndex → Nat → Except CEErr RuleIndex) (ix : RuleIndex)
        (i : Nat) (rslv : Resolver) (e : Label) (rest : List Label) (ri : RuleRecord),
        nth ix.rules i = some ri →
        findRuleByLabel ix e ri.label = none →
        collectLoop ce ix i rslv (e :: rest) = collectLoop ce ix i rslv rest) := by
  refine ⟨?_, ?_, ?_⟩
  · intro ix c r f rslv h0 hm hImp
    apply AddRule_imps_none ix c r f h0
    unfold addRuleLangImps
    rw [hm]
    dsimp only
    by_cases hf : passesLanguageFilter c.langs rslv.name
    · rw [if_pos hf, hImp]
    · rw [if_neg hf]
  · intro ix ixF l hw hFin hnone imp lang res hres
    obtain ⟨m, hFL, hixF⟩ := Finish_ok_elim ix ixF hFin
    have hstep := finishLoop_step _ _ ix m hFL
    rw [findRules_mem_iff] at hres
    obtain ⟨j, rc, _, hrc, _, hresEq⟩ := hres
    have hrc' : nth m.rules j = some rc := by
      rw [hixF] at hrc
      exact hrc
    obtain ⟨ra, hra, s⟩ := hstep.back j rc hrc'
    intro hlab
    apply label_not_recorded_of_lookup_none ix hw.lmap l hnone ra
      (mem_of_nth_some _ _ _ hra)
    rw [← s.label]
    rw [hresEq] at hlab
    exact hlab
  · intro ce ix i rslv e rest ri hri hfind
    simp only [collectLoop]
    rw [hri]
    dsimp only
    rw [hfind]

/-- A resolver whose Imports always returns nil, for the C6 witness. -/
def nilRes : Resolver :=
  { name := "go", imports := fun _ _ _ => none, embeds := fun _ _ => [] }

def exNilBase : RuleIndex := NewRuleIndex (fun _ _ => some nilRes) []

/-- Witness for C6 at concrete inputs: adding a nil-imports rule leaves the
index unchanged, and a query result of the finished chain index does not
carry an unrecorded label. -/
theorem claimC6_witness :
    (exNilBase.AddRule cfg0 ruleX pkgFile = some exNilBase) ∧
    (({ label := lbl "c", embeds := [lbl "a", lbl "b"] } : FindResult).label ≠ lbl "zz") :=
  ⟨claimC6_theorem.1 exNilBase cfg0 ruleX pkgFile nilRes rfl rfl rfl,
   claimC6_theorem.2.1 exChainIx exChainFin (lbl "zz")
     (wf_of_check exChainIx (by decide)) rfl (by decide) exQuerySpec "go"
     { label := lbl "c", embeds := [lbl "a", lbl "b"] } (by decide)⟩


end GazelleResolve
